import Mathlib

/-!
Verification development for the `graphql-import` SDL import resolver.

The embedding models the two core source files:
  * `src/definition.js`   — the definition-closure ("pool completion") engine
  * `src/import-schema.js` — import-line parsing, import-graph traversal,
    root-type merge and assembly

SDL text parsing/printing and file loading are external collaborators of the
program; fragments are therefore modelled as already-parsed definition lists
plus already-scanned import requests.  JS heap aliasing (the root-type merge
mutates shared AST nodes in place) is modelled by tagging every definition
with an `id` (the object identity) and applying the mutation to every
occurrence of the same `id`.
-/

/-- A GraphQL type reference: a named type possibly wrapped in List/NonNull
layers (`getNamedType` in `src/definition.js` unwraps the layers). -/
inductive TypeRef where
  | named (name : String)
  | listOf (t : TypeRef)
  | nonNull (t : TypeRef)
deriving Repr, DecidableEq, BEq

/-- `getNamedType` from `src/definition.js`: unwrap List/NonNull wrappers down
to the underlying named type (here, directly its name). -/
def namedTypeName : TypeRef → String
  | .named n => n
  | .listOf t => namedTypeName t
  | .nonNull t => namedTypeName t

/-- An argument / input-value node: name, type reference, applied directive
names.  (Applied directives are consulted only through `name.value` in the
source, so they are modelled as names.) -/
structure ArgV where
  name : String
  type : TypeRef
  directives : List String
deriving Repr, DecidableEq, BEq

/-- A field definition node: name, type reference, arguments, applied
directive names. -/
structure FieldV where
  name : String
  type : TypeRef
  arguments : List ArgV
  directives : List String
deriving Repr, DecidableEq, BEq

/-- One entry of a `SchemaDefinition`'s `operationTypes`: the operation kind
and the referenced type name (`node.type` is a named type node). -/
structure OpTypeV where
  operation : String
  tname : String
deriving Repr, DecidableEq, BEq

/-- A top-level SDL definition, mirroring the dynamic JS AST node: `kind` is
the GraphQL `Kind` string and the structural attributes default to `[]`
exactly as absent JS properties are never read for the kinds that lack them.
`id` models JS object identity (two parses of the same text yield distinct
ids); it is never read by name-based logic. -/
structure Definition where
  kind : String
  name : String := ""
  directives : List String := []
  fields : List FieldV := []
  interfaces : List String := []
  types : List String := []
  operationTypes : List OpTypeV := []
  arguments : List ArgV := []
  id : Nat := 0
deriving Repr, DecidableEq, BEq

/-- `builtinTypes` from `src/definition.js`. -/
def builtinTypes : List String := ["String", "Float", "Int", "Boolean", "ID"]

/-- `builtinDirectives` from `src/definition.js`. -/
def builtinDirectives : List String := ["deprecated", "skip", "include"]

/-- `rootFields` from `src/import-schema.js`. -/
def rootFields : List String := ["Query", "Mutation", "Subscription", "schema"]

/-- `getNodeName` from `src/definition.js`: the node's name, or `"schema"`
for a `SchemaDefinition`. -/
def getNodeName (d : Definition) : String :=
  if d.kind == "SchemaDefinition" then "schema" else d.name

/-- The key used by the final dedup step `uniqBy(path(['name','value']))` in
`completeDefinitionPool`: the raw `name.value`, which is absent (undefined)
on a `SchemaDefinition` node. -/
def nameKey (d : Definition) : Option String :=
  if d.kind == "SchemaDefinition" then none else some d.name

/-- Ramda's `indexBy f l` builds an object in which later list elements
overwrite earlier ones; looked up at `key` it returns the last element whose
key matches. -/
def indexBy (f : Definition → String) (l : List Definition) : String → Option Definition :=
  fun key => l.foldl (fun acc d => if f d == key then some d else acc) none

/-- The `schemaMap` built in each `completeDefinitionPool` iteration:
`indexBy(getNodeName, reverse(allDefinitions))`, so on a name collision the
earliest element of `allDefinitions` wins. -/
def schemaMapOf (allDefinitions : List Definition) : String → Option Definition :=
  indexBy getNodeName allDefinitions.reverse

/-- Ramda's `uniqBy` with the `nameKey` key: keep the first occurrence of
each key, drop later duplicates. -/
def uniqByName : List Definition → List Definition :=
  go []
where
  go (seen : List (Option String)) : List Definition → List Definition
    | [] => []
    | d :: rest =>
      if seen.contains (nameKey d) then go seen rest
      else d :: go (nameKey d :: seen) rest

/-- The error text JS produces when the mutual `collectNode`/`collectDirective`
recursion overflows the stack (or, for the outer loop, fuel exhaustion). -/
def stackMsg : String := "RangeError: Maximum call stack size exceeded"

mutual

/-- `collectNode` from `src/definition.js` (the closure over
`newTypeDefinitions` is threaded as the accumulator `acc`): resolve the
node's unwrapped named type against the pool / builtin scalars / schema map,
pushing a missing resolvable type, then collect the node's directives.
`fuel` models the JS call stack. -/
def collectNodeCore : Nat → List Definition → (String → Option Definition) →
    List Definition → String → TypeRef → List String → Except String (List Definition)
  | 0, _, _, _, _, _, _ => .error stackMsg
  | fuel + 1, pool, sm, acc, nm, ty, dirs =>
    let nodeTypeName := namedTypeName ty
    let step1 : Except String (List Definition) :=
      if !(pool.any fun d => getNodeName d == nodeTypeName)
          && !(builtinTypes.contains nodeTypeName) then
        match sm nodeTypeName with
        | none =>
          .error ("Field " ++ nm ++ ": Couldn't find type " ++ nodeTypeName ++
            " in any of the schemas.")
        | some argTypeMatch => .ok (acc ++ [argTypeMatch])
      else .ok acc
    match step1 with
    | .error e => .error e
    | .ok acc1 => collectDirectiveList fuel pool sm acc1 dirs

/-- `collectDirective` from `src/definition.js`: a non-builtin directive name
absent from the pool must resolve in the schema map; its definition's
arguments are collected via `collectNode`, then the directive definition
itself is pushed. -/
def collectDirectiveE : Nat → List Definition → (String → Option Definition) →
    List Definition → String → Except String (List Definition)
  | 0, _, _, _, _ => .error stackMsg
  | fuel + 1, pool, sm, acc, directiveName =>
    if !(pool.any fun d => getNodeName d == directiveName)
        && !(builtinDirectives.contains directiveName) then
      match sm directiveName with
      | none =>
        .error ("Directive " ++ directiveName ++ ": Couldn't find type " ++
          directiveName ++ " in any of the schemas.")
      | some dirDef =>
        match collectArgList fuel pool sm acc dirDef.arguments with
        | .error e => .error e
        | .ok acc1 => .ok (acc1 ++ [dirDef])
    else .ok acc

/-- `directive.arguments.forEach(collectNode)` from `collectDirective`. -/
def collectArgList : Nat → List Definition → (String → Option Definition) →
    List Definition → List ArgV → Except String (List Definition)
  | 0, _, _, _, _ => .error stackMsg
  | _ + 1, _, _, acc, [] => .ok acc
  | fuel + 1, pool, sm, acc, a :: rest =>
    match collectNodeCore fuel pool sm acc a.name a.type a.directives with
    | .error e => .error e
    | .ok acc1 => collectArgList fuel pool sm acc1 rest

/-- `node.directives.forEach(collectDirective)`. -/
def collectDirectiveList : Nat → List Definition → (String → Option Definition) →
    List Definition → List String → Except String (List Definition)
  | 0, _, _, _, _ => .error stackMsg
  | _ + 1, _, _, acc, [] => .ok acc
  | fuel + 1, pool, sm, acc, dn :: rest =>
    match collectDirectiveE fuel pool sm acc dn with
    | .error e => .error e
    | .ok acc1 => collectDirectiveList fuel pool sm acc1 rest

end

/-- `newDefinition.fields.forEach(collectNode)` (InputObject / Interface
branches: field arguments are not walked for these kinds). -/
def collectFieldList (fuel : Nat) (pool : List Definition)
    (sm : String → Option Definition) :
    List Definition → List FieldV → Except String (List Definition)
  | acc, [] => .ok acc
  | acc, f :: rest =>
    match collectNodeCore fuel pool sm acc f.name f.type f.directives with
    | .error e => .error e
    | .ok acc1 => collectFieldList fuel pool sm acc1 rest

/-- The Object branch's field walk: `collectNode(field)` then
`field.arguments.forEach(collectNode)`. -/
def collectObjFieldList (fuel : Nat) (pool : List Definition)
    (sm : String → Option Definition) :
    List Definition → List FieldV → Except String (List Definition)
  | acc, [] => .ok acc
  | acc, f :: rest =>
    match collectNodeCore fuel pool sm acc f.name f.type f.directives with
    | .error e => .error e
    | .ok acc1 =>
      match collectArgList fuel pool sm acc1 f.arguments with
      | .error e => .error e
      | .ok acc2 => collectObjFieldList fuel pool sm acc2 rest

/-- The Object branch's `newDefinition.interfaces.forEach(...)`: an interface
name absent from the pool must resolve in the schema map and is pushed. -/
def collectInterfaceList (pool : List Definition)
    (sm : String → Option Definition) :
    List Definition → List String → Except String (List Definition)
  | acc, [] => .ok acc
  | acc, i :: rest =>
    if !(pool.any fun d => getNodeName d == i) then
      match sm i with
      | none =>
        .error ("Couldn't find interface " ++ i ++ " in any of the schemas.")
      | some m => collectInterfaceList pool sm (acc ++ [m]) rest
    else collectInterfaceList pool sm acc rest

/-- `collectType` from `src/definition.js`, mapped over a list of type names
(Union members, or Schema operation types): a name absent from the pool must
resolve in the schema map and is pushed (no builtin exemption here). -/
def collectTypeList (pool : List Definition)
    (sm : String → Option Definition) :
    List Definition → List String → Except String (List Definition)
  | acc, [] => .ok acc
  | acc, t :: rest =>
    if !(pool.any fun d => getNodeName d == t) then
      match sm t with
      | none => .error ("Couldn't find type " ++ t ++ " in any of the schemas.")
      | some m => collectTypeList pool sm (acc ++ [m]) rest
    else collectTypeList pool sm acc rest

/-- The `interfaceImplementations` pushed by the Interface branch of
`collectNewTypeDefinitions`: every Object definition in the whole universe
declaring `implements <interfaceName>`, pushed unconditionally. -/
def interfaceImplementationsOf (allDefinitions : List Definition)
    (interfaceName : String) : List Definition :=
  allDefinitions.filter fun d =>
    d.kind == "ObjectTypeDefinition" && d.interfaces.contains interfaceName

/-- `collectNewTypeDefinitions` from `src/definition.js`: process one
definition, returning the newly discovered definitions in push order.  The
source's sequence of `if` branches over the node kind is kept literally; for
any concrete kind at most one kind branch fires. -/
def collectNewTypeDefinitions (fuel : Nat) (allDefinitions definitionPool : List Definition)
    (newDefinition : Definition) (sm : String → Option Definition) :
    Except String (List Definition) :=
  match (if newDefinition.kind != "DirectiveDefinition" then
      collectDirectiveList fuel definitionPool sm [] newDefinition.directives
    else .ok []) with
  | .error e => .error e
  | .ok acc0 =>
  match (if newDefinition.kind == "InputObjectTypeDefinition" then
      collectFieldList fuel definitionPool sm acc0 newDefinition.fields
    else .ok acc0) with
  | .error e => .error e
  | .ok acc1 =>
  match (if newDefinition.kind == "InterfaceTypeDefinition" then
      match collectFieldList fuel definitionPool sm acc1 newDefinition.fields with
      | Except.error e => Except.error e
      | Except.ok a =>
        Except.ok (a ++ interfaceImplementationsOf allDefinitions newDefinition.name)
    else .ok acc1) with
  | .error e => .error e
  | .ok acc2 =>
  match (if newDefinition.kind == "UnionTypeDefinition" then
      collectTypeList definitionPool sm acc2 newDefinition.types
    else .ok acc2) with
  | .error e => .error e
  | .ok acc3 =>
  match (if newDefinition.kind == "ObjectTypeDefinition" then
      match collectInterfaceList definitionPool sm acc3 newDefinition.interfaces with
      | Except.error e => Except.error e
      | Except.ok a => collectObjFieldList fuel definitionPool sm a newDefinition.fields
    else .ok acc3) with
  | .error e => .error e
  | .ok acc4 =>
  if newDefinition.kind == "SchemaDefinition" then
    collectTypeList definitionPool sm acc4 (newDefinition.operationTypes.map (·.tname))
  else .ok acc4

/-- `completeDefinitionPool` from `src/definition.js`: the work-queue loop.
Shift a definition; skip it if its `getNodeName` was already visited;
otherwise collect its newly discovered dependencies, appending them to both
the queue and the pool, and mark the name visited.  On completion return the
pool deduplicated by `name.value`, first occurrence kept.  `fuel` bounds the
number of loop iterations (the JS loop's termination argument). -/
def completeDefinitionPool : Nat → List Definition → List Definition →
    List Definition → List String → Except String (List Definition)
  | 0, _, _, _, _ => .error stackMsg
  | _ + 1, _, definitionPool, [], _ => .ok (uniqByName definitionPool)
  | fuel + 1, allDefinitions, definitionPool, newDefinition :: rest, visited =>
    let sm := schemaMapOf allDefinitions
    if visited.contains (getNodeName newDefinition) then
      completeDefinitionPool fuel allDefinitions definitionPool rest visited
    else
      match collectNewTypeDefinitions fuel allDefinitions definitionPool newDefinition sm with
      | .error e => .error e
      | .ok collected =>
        completeDefinitionPool fuel allDefinitions (definitionPool ++ collected)
          (rest ++ collected) (visited ++ [getNodeName newDefinition])

/-- Equality of `Except` results is decidable (used to evaluate the model on
concrete inputs). -/
instance exceptDecEq {e a : Type} [DecidableEq e] [DecidableEq a] :
    DecidableEq (Except e a) := fun x y =>
  match x, y with
  | .ok u, .ok v =>
    if h : u = v then isTrue (by rw [h]) else isFalse (by intro hc; cases hc; exact h rfl)
  | .error u, .error v =>
    if h : u = v then isTrue (by rw [h]) else isFalse (by intro hc; cases hc; exact h rfl)
  | .ok _, .error _ => isFalse (by intro hc; cases hc)
  | .error _, .ok _ => isFalse (by intro hc; cases hc)

/-- JS `s.split(sep)` for a one-character separator, at character level:
`"".split(',')` is `[""]` and `",".split(',')` is `["", ""]`. -/
def splitOnChar (sep : Char) : List Char → List (List Char)
  | [] => [[]]
  | c :: cs =>
    if c = sep then [] :: splitOnChar sep cs
    else
      match splitOnChar sep cs with
      | g :: gs => (c :: g) :: gs
      | [] => [[c]]

/-- JS `String.prototype.trim` at character level: strip leading and
trailing whitespace. -/
def trimChars (l : List Char) : List Char :=
  ((l.dropWhile Char.isWhitespace).reverse.dropWhile Char.isWhitespace).reverse

/-- A parsed import line: `{ imports, from }` (`from` is a keyword in Lean,
hence `from_`). -/
structure ImportRequest where
  imports : List String
  from_ : String
deriving Repr, DecidableEq

/-- All decompositions of a list into (prefix, suffix), in increasing prefix
length; used to model the greedy backtracking of `(.*)` in the
`parseImportLine` regex. -/
def allSplits : List Char → List (List Char × List Char)
  | [] => [([], [])]
  | c :: cs => ([], c :: cs) :: (allSplits cs).map fun p => (c :: p.1, p.2)

/-- The tail `('|")(.*)('|");?$` of the `parseImportLine` regex, applied to
the text after `" from "`: an opening single or double quote, then the
greedy path capture, then a closing single or double quote (the quotes need
not pair), then an optional semicolon, then end of line.  Returns the path
capture (group 4). -/
def matchQuotedTail : List Char → Option (List Char)
  | [] => none
  | c1 :: u =>
    if c1 = '\'' ∨ c1 = '"' then
      if u ≠ [] ∧ (u.getLast? = some '\'' ∨ u.getLast? = some '"') then
        some u.dropLast
      else if u.getLast? = some ';' ∧
          (u.dropLast.getLast? = some '\'' ∨ u.dropLast.getLast? = some '"') then
        some (u.dropLast.dropLast)
      else none
    else none

/-- The regex `/^import (\*|(.*)) from ('|")(.*)('|");?$/` of
`parseImportLine`, as a specialised backtracking matcher.  The `\*`
alternative is tried first; on its failure the greedy `(.*)` alternative
picks the longest spec prefix followed by a literal `" from "` whose
remainder matches the quoted tail.  Returns (group 1, group 4). -/
def matchImportLine (line : String) : Option (List Char × List Char) :=
  let cs := line.toList
  if cs.take 7 = "import ".toList then
    let r := cs.drop 7
    if r.take 7 = "* from ".toList ∧ (matchQuotedTail (r.drop 7)).isSome then
      match matchQuotedTail (r.drop 7) with
      | some path => some (['*'], path)
      | none => none
    else
      let candidates := (allSplits r).filterMap fun p =>
        if p.2.take 6 = " from ".toList then
          match matchQuotedTail (p.2.drop 6) with
          | some path => some (p.1, path)
          | none => none
        else none
      candidates.getLast?
  else none

/-- `parseImportLine` from `src/import-schema.js`.  On a regex match with a
non-empty path, the imports are `['*']` when group 1 is `*`, otherwise group
2 split on commas and trimmed.  (The JS error message interpolates the match
array; only the fact that an error is thrown is modelled.) -/
def parseImportLine (importLine : String) : Except String ImportRequest :=
  match matchImportLine importLine with
  | none => .error "Too few regex matches"
  | some (wildcard, fromPath) =>
    if fromPath = [] then .error "Too few regex matches"
    else if wildcard = ['*'] then
      .ok { imports := ["*"], from_ := fromPath.asString }
    else
      .ok { imports := (splitOnChar ',' wildcard).map fun d => (trimChars d).asString,
            from_ := fromPath.asString }

/-- `filterTypeDefinitions` from `src/import-schema.js`: keep only the eight
recognised definition kinds. -/
def validKinds : List String :=
  ["SchemaDefinition", "DirectiveDefinition", "ScalarTypeDefinition",
   "ObjectTypeDefinition", "InterfaceTypeDefinition", "EnumTypeDefinition",
   "UnionTypeDefinition", "InputObjectTypeDefinition"]

/-- `filterTypeDefinitions` from `src/import-schema.js`. -/
def filterTypeDefinitions (definitions : List Definition) : List Definition :=
  definitions.filter fun d => validKinds.contains d.kind

/-- The root type of a (possibly dotted) import entry: `i.split('.')[0]`. -/
def importRoot (i : String) : String :=
  ((splitOnChar '.' i.toList).headD i.toList).asString

/-- The field segment of a dotted import entry: `x.split('.')[1]`. -/
def importField (x : String) : String :=
  (((splitOnChar '.' x.toList).drop 1).headD []).asString

/-- Replace the first definition named `rootType` by narrowing its `fields`
to the given field names (a `Type.*` entry keeps all fields); `none` models
the JS `TypeError` when no such definition exists
(`filteredDefinitions.find(...)` yields `undefined`). -/
def narrowOne (rootType : String) (fieldNames : List String) :
    List Definition → Option (List Definition)
  | [] => none
  | d :: rest =>
    if getNodeName d == rootType then
      some ({ d with fields := d.fields.filter fun f =>
        fieldNames.contains f.name || fieldNames.contains "*" } :: rest)
    else (narrowOne rootType fieldNames rest).map (d :: ·)

/-- The dotted-import narrowing loop of `filterImportedDefinitions`: group
the dotted entries by root type (first-occurrence order, as JS object key
insertion order) and narrow each root type's fields in place. -/
def narrowFields (imports : List String) (filteredDefinitions : List Definition) :
    Option (List Definition) :=
  let fieldImports := imports.filter fun i => (splitOnChar '.' i.toList).length > 1
  let roots := (fieldImports.map importRoot).dedup
  roots.foldlM (fun defs rootType =>
    narrowOne rootType
      ((fieldImports.filter fun x => importRoot x == rootType).map importField) defs)
    filteredDefinitions

/-- `filterImportedDefinitions` from `src/import-schema.js`.  The result list
reflects the in-place field narrowing (the mutated nodes are the selected
ones); `none` models the JS crash on a dotted import whose root type is not
among the fragment's definitions. -/
def filterImportedDefinitions (imports : List String)
    (typeDefinitions : List Definition)
    (allDefinitions : List (List Definition)) : Option (List Definition) :=
  let filteredDefinitions := filterTypeDefinitions typeDefinitions
  if imports.contains "*" then
    if imports.length == 1 && imports.headD "" == "*" && allDefinitions.length > 1 then
      let previousTypeDefinitions := indexBy getNodeName
        ((allDefinitions.dropLast).flatten.filter fun d =>
          !(rootFields.contains (getNodeName d)))
      some (typeDefinitions.filter fun td =>
        td.kind == "ObjectTypeDefinition" && (previousTypeDefinitions td.name).isSome)
    else some filteredDefinitions
  else
    match narrowFields imports filteredDefinitions with
    | none => none
    | some narrowed =>
      some (narrowed.filter fun d =>
        (imports.map importRoot).contains (getNodeName d))

/-- One SDL fragment as the traversal sees it: its parsed, already
kind-relevant definition list and its scanned import lines (`parseSDL` of
its text).  Parsing text and loading files are external collaborators. -/
structure Fragment where
  defs : List Definition
  imports : List ImportRequest
deriving Repr, DecidableEq

/-- A named-schema environment: location id to fragment.  Locations are
opaque (the named in-memory schema mode, in which `resolveModuleFilePath`
passes the import target through unchanged and `read` is a map lookup). -/
abbrev Env : Type := List (String × Fragment)

/-- `read(schema, schemas)` in the named-schema mode: first binding wins. -/
def lookupEnv (env : Env) (loc : String) : Option Fragment :=
  (env.find? fun p => p.1 == loc).map (·.2)

/-- The accumulating traversal state of `collectDefinitions`: the processed
`(location, import line)` pairs (the JS `processedFiles` map, queried only
for pair membership), and the two per-fragment collections. -/
structure TravState where
  processed : List (String × ImportRequest)
  typeDefs : List (List Definition)
  allDefs : List (List Definition)
deriving Repr, DecidableEq

/-- The `rawModules.forEach` loop of `collectDefinitions`: an import line
whose `(location, content)` pair was already processed is skipped; otherwise
the pair is recorded first and the import is visited recursively. -/
def stepImports (visitF : List String → String → TravState → Option TravState)
    (loc : String) : List ImportRequest → TravState → Option TravState
  | [], st => some st
  | m :: ms, st =>
    if st.processed.contains (loc, m) then stepImports visitF loc ms st
    else
      match visitF m.imports m.from_ { st with processed := st.processed ++ [(loc, m)] } with
      | none => none
      | some st2 => stepImports visitF loc ms st2

/-- The fragment's definitions as they stand in `allDefinitions` after this
visit: kind-filtered, with the dotted-import narrowing applied to the shared
nodes (the in-place mutation of `filterImportedDefinitions`). -/
def narrowedEntry (imports : List String) (defs : List Definition) :
    Option (List Definition) :=
  if imports.contains "*" then some (filterTypeDefinitions defs)
  else narrowFields imports (filterTypeDefinitions defs)

/-- `collectDefinitions` from `src/import-schema.js` in the named-schema
mode: push the fragment's kind-filtered definitions onto `allDefs`, compute
and push the requested subset onto `typeDefs`, then recurse into each not
yet processed import line.  `fuel` bounds the recursion depth; `none` models
a crash (missing schema, bad dotted import) or fuel exhaustion. -/
def collectDefinitions (env : Env) : Nat → List String → String → TravState →
    Option TravState
  | 0, _, _, _ => none
  | fuel + 1, imports, loc, st =>
    match lookupEnv env loc with
    | none => none
    | some frag =>
      match narrowedEntry imports frag.defs,
          filterImportedDefinitions imports frag.defs
            (st.allDefs ++ [filterTypeDefinitions frag.defs]) with
      | some entry, some current =>
        stepImports (collectDefinitions env fuel) loc frag.imports
          { st with allDefs := st.allDefs ++ [entry],
                    typeDefs := st.typeDefs ++ [current] }
      | _, _ => none

/-- One merge step of the `importSchema` merge loop:
`existingType.operationTypes = existingType.operationTypes.concat(...)` when
the later instance is a `SchemaDefinition`, otherwise
`existingType.fields = existingType.fields.concat(type.fields)`. -/
def mergeContent (x t : Definition) : Definition :=
  if t.kind == "SchemaDefinition" then
    { x with operationTypes := x.operationTypes ++ t.operationTypes }
  else { x with fields := x.fields ++ t.fields }

/-- The merge step applied in place to the first same-named entry of the
merged list (`mergedFirstTypes.find(...)` then the field assignment). -/
def mergeInto (t : Definition) : List Definition → List Definition
  | [] => []
  | x :: rest =>
    if getNodeName x == getNodeName t then mergeContent x t :: rest
    else x :: mergeInto t rest

/-- The `for (const type of firstSet)` merge loop of `importSchema`: collect
each first-seen name, concatenating a later same-named instance's fields
(operation types for Schema kind) onto the first-seen instance. -/
def mergeLoop : List Definition → List String → List Definition → List Definition
  | [], _, merged => merged
  | t :: rest, processedTypeNames, merged =>
    if processedTypeNames.contains (getNodeName t) then
      mergeLoop rest processedTypeNames (mergeInto t merged)
    else
      mergeLoop rest (processedTypeNames ++ [getNodeName t]) (merged ++ [t])

/-- The in-place mutation of the merge loop, seen from any alias of the same
JS object: a definition whose `id` is that of a merged first-seen instance
now carries the merged content. -/
def applyMerge (merged : List Definition) (d : Definition) : Definition :=
  match merged.find? fun m => m.id == d.id with
  | some m => m
  | none => d

/-- `firstSet` in `importSchema`: the flattened requested definitions whose
name is `Query`/`Mutation`/`Subscription`/`schema` or a caller-declared
mergeable type, in first-seen order across all fragments, followed by the
root fragment's remaining requested definitions. -/
def firstSetOf (mergeableTypes : List String)
    (typeDefs : List (List Definition)) : List Definition :=
  let allMergeableTypes := mergeableTypes ++ rootFields
  (typeDefs.flatten.filter fun d => allMergeableTypes.contains (getNodeName d)) ++
    ((typeDefs.headD []).filter fun d => !(allMergeableTypes.contains (getNodeName d)))

/-- The `mergedFirstTypes` the merge loop of `importSchema` builds (its
side effect on the shared nodes is what the rest of the pipeline sees). -/
def mergedOf (mergeableTypes : List String)
    (typeDefs : List (List Definition)) : List Definition :=
  mergeLoop (firstSetOf mergeableTypes typeDefs) [] []

/-- The closure engine's initial pool: `firstSet` as the merge loop left it
in memory (first instances merged in place, later duplicates retained). -/
def initialPool (mergeableTypes : List String)
    (typeDefs : List (List Definition)) : List Definition :=
  (firstSetOf mergeableTypes typeDefs).map
    (applyMerge (mergedOf mergeableTypes typeDefs))

/-- The closure engine's initial queue: the flattened requested definitions
of all fragments in visitation order, as the merge loop left them. -/
def initialQueue (mergeableTypes : List String)
    (typeDefs : List (List Definition)) : List Definition :=
  typeDefs.flatten.map (applyMerge (mergedOf mergeableTypes typeDefs))

/-- `importSchema` from `src/import-schema.js` after the traversal: the
root-type partition and merge, then the closure engine.  `typeDefs` and
`allDefs` are the traversal's two collections; the merge mutates shared
nodes, which every alias (in the pool, the queue and the universe) observes
via `applyMerge`.  An empty `typeDefs` models the JS crash on
`typeDefinitions[0]`. -/
def importSchemaCore (fuel : Nat) (mergeableTypes : List String)
    (typeDefs allDefs : List (List Definition)) : Except String (List Definition) :=
  match typeDefs with
  | [] => .error "TypeError: Cannot read properties of undefined"
  | _ :: _ =>
    completeDefinitionPool fuel
      (allDefs.flatten.map (applyMerge (mergedOf mergeableTypes typeDefs)))
      (initialPool mergeableTypes typeDefs) (initialQueue mergeableTypes typeDefs) []

/-- The whole pipeline in the named-schema mode: traverse from the root
location (requesting `['*']` as `importSchema` does), then assemble and
close.  `none` models a traversal crash. -/
def importSchemaModel (fuel : Nat) (env : Env) (rootLoc : String)
    (mergeableTypes : List String) : Option (Except String (List Definition)) :=
  match collectDefinitions env fuel ["*"] rootLoc ⟨[], [], []⟩ with
  | none => none
  | some st => some (importSchemaCore fuel mergeableTypes st.typeDefs st.allDefs)

/-- The named type references of a definition's fields (used to state
counterexamples about dangling field references). -/
def fieldTypeRefs (d : Definition) : List String :=
  d.fields.map fun f => namedTypeName f.type

/-- The named type references of a directive definition's arguments. -/
def argTypeRefs (d : Definition) : List String :=
  d.arguments.map fun a => namedTypeName a.type

/-- All builtin names (scalars and directives) together. -/
def builtinAll : List String := builtinTypes ++ builtinDirectives

/-- The references `collectNewTypeDefinitions` checks when processing a
definition of each kind: applied directive names (non-directive kinds),
field and argument types and their directives, union members, declared
interfaces and schema operation types.  A `DirectiveDefinition` processed
from the queue is checked for nothing (its arguments are walked only when
the directive is resolved through a reference). -/
def checkedRefs (d : Definition) : List String :=
  (if d.kind != "DirectiveDefinition" then d.directives else []) ++
  (if d.kind == "InputObjectTypeDefinition" then
    d.fields.flatMap fun f => namedTypeName f.type :: f.directives
  else []) ++
  (if d.kind == "InterfaceTypeDefinition" then
    d.fields.flatMap fun f => namedTypeName f.type :: f.directives
  else []) ++
  (if d.kind == "UnionTypeDefinition" then d.types else []) ++
  (if d.kind == "ObjectTypeDefinition" then
    d.interfaces ++ (d.fields.flatMap fun f =>
      (namedTypeName f.type :: f.directives) ++
        (f.arguments.flatMap fun a => namedTypeName a.type :: a.directives))
  else []) ++
  (if d.kind == "SchemaDefinition" then d.operationTypes.map (·.tname) else [])

/-- A definition all of whose checked references resolve inside the given
name set or are builtins of the right flavour (union members, interfaces
and operation types have no builtin exemption, exactly as in the source). -/
def refsSatisfied (poolNames : List String) (d : Definition) : Bool :=
  let typeOk := fun (n : String) => poolNames.contains n || builtinTypes.contains n
  let dirOk := fun (n : String) => poolNames.contains n || builtinDirectives.contains n
  (if d.kind != "DirectiveDefinition" then d.directives.all dirOk else true) &&
  (if d.kind == "InputObjectTypeDefinition" then
    d.fields.all fun f => typeOk (namedTypeName f.type) && f.directives.all dirOk
  else true) &&
  (if d.kind == "InterfaceTypeDefinition" then
    d.fields.all fun f => typeOk (namedTypeName f.type) && f.directives.all dirOk
  else true) &&
  (if d.kind == "UnionTypeDefinition" then
    d.types.all poolNames.contains
  else true) &&
  (if d.kind == "ObjectTypeDefinition" then
    d.interfaces.all poolNames.contains &&
      d.fields.all (fun f => typeOk (namedTypeName f.type) && f.directives.all dirOk &&
        f.arguments.all fun a => typeOk (namedTypeName a.type) && a.directives.all dirOk)
  else true) &&
  (if d.kind == "SchemaDefinition" then
    (d.operationTypes.map (·.tname)).all poolNames.contains
  else true)

/-- Every `(location, import line)` pair the traversal can ever process:
each environment binding's location paired with each of the import
lines of its fragment. -/
def pairUniverse (env : Env) : List (String × ImportRequest) :=
  env.flatMap fun p => p.2.imports.map fun m => (p.1, m)

/-- A bare identifier in the sense of the spec's import grammar (§4.1):
non-empty, made of word characters. -/
def isBareIdentifier (s : String) : Bool :=
  s ≠ "" && s.toList.all fun c => c.isAlphanum || c = '_'

/-- Shorthand: a field with no arguments and no directives. -/
def fld (n tn : String) : FieldV :=
  { name := n, type := .named tn, arguments := [], directives := [] }

/-- Shorthand: an object type definition with given fields and id. -/
def objDef (n : String) (fs : List FieldV) (i : Nat) : Definition :=
  { kind := "ObjectTypeDefinition", name := n, fields := fs, id := i }

/-- A name is resolved, in the sense of the closure engine's checks: it is a
builtin of the allowed flavour, or a pool definition carries it, or a
collected definition carries it. -/
def resolvedIn (pool acc : List Definition) (builtins : List String)
    (n : String) : Prop :=
  n ∈ builtins ∨ (∃ d ∈ pool, getNodeName d = n) ∨ ∃ m ∈ acc, getNodeName m = n

/-- The traversal-state invariant: the processed `(location, import line)`
pairs are pairwise distinct and all drawn from the environment's pair
universe. -/
def TravInv (env : Env) (st : TravState) : Prop :=
  st.processed.Nodup ∧ ∀ p ∈ st.processed, p ∈ pairUniverse env

/-- How many distinct `(location, import line)` pairs are not yet
processed. -/
def pairsLeft (env : Env) (st : TravState) : Nat :=
  ((pairUniverse env).dedup).length - st.processed.length

/-! ### Concrete scenarios used by counterexamples and witnesses -/

/-- C1 counterexample, root fragment: `type Query { q: B }` with
`# import B from "f1"`. -/
def cxQuery : Definition := objDef "Query" [fld "q" "B"] 0

/-- C1 counterexample, fragment f1's unrequested `type A { bad: Missing }`. -/
def cxAbad : Definition := objDef "A" [fld "bad" "Missing"] 1

/-- C1 counterexample, fragment f1's requested `type B { x: A }`
(f1 also has `# import A from "f2"`). -/
def cxB : Definition := objDef "B" [fld "x" "A"] 2

/-- C1 counterexample, fragment f2's `type A { good: String }`. -/
def cxAgood : Definition := objDef "A" [fld "good" "String"] 3

/-- C1 counterexample (second failure mode): a directly requested
`directive @foo(x: Missing2) on FIELD` whose argument type is never
checked. -/
def cxDirFoo : Definition :=
  { kind := "DirectiveDefinition", name := "foo",
    arguments := [{ name := "x", type := .named "Missing2", directives := [] }],
    id := 0 }

/-- C1/C10 witness schema: `type Query { posts: Post }`. -/
def w1Query : Definition := objDef "Query" [fld "posts" "Post"] 0

/-- C1/C10 witness schema: `type Post { id: ID }`. -/
def w1Post : Definition := objDef "Post" [fld "id" "ID"] 1

/-- C3 witness: the root fragment's own `type A { s: String }`. -/
def w3A : Definition := objDef "A" [fld "s" "String"] 0

/-- C3 witness: the requested `interface I { s: String }`. -/
def w3I : Definition :=
  { kind := "InterfaceTypeDefinition", name := "I", fields := [fld "s" "String"], id := 1 }

/-- C3 witness: another fragment's `type A implements I { t: String }`,
discovered transitively as an implementation of `I`. -/
def w3A2 : Definition :=
  { kind := "ObjectTypeDefinition", name := "A", fields := [fld "t" "String"],
    interfaces := ["I"], id := 2 }

/-- C4 example: one fragment's `type Query { a: String }`. -/
def exQ1 : Definition := objDef "Query" [fld "a" "String"] 0

/-- C4 example: another fragment's `type Query { b: Int }`. -/
def exQ2 : Definition := objDef "Query" [fld "b" "Int"] 1

/-- C5 counterexample, root fragment: `type Query { b: B }` with
`# import B from "f1"`. -/
def c5Root : Fragment :=
  { defs := [objDef "Query" [fld "b" "B"] 0],
    imports := [{ imports := ["B"], from_ := "f1" }] }

/-- C5 counterexample, fragment f1: requested `type B`, unrequested
`type C`, and `# import * from "f2"`. -/
def c5F1 : Fragment :=
  { defs := [objDef "B" [fld "x" "String"] 1, objDef "C" [fld "y" "String"] 2],
    imports := [{ imports := ["*"], from_ := "f2" }] }

/-- C5 counterexample, fragment f2: `type C { z: Int }`. -/
def c5F2 : Fragment := { defs := [objDef "C" [fld "z" "Int"] 3], imports := [] }

/-- C5 counterexample environment. -/
def c5Env : Env := [("root", c5Root), ("f1", c5F1), ("f2", c5F2)]

/-- C6 witness: fragment `a`, importing everything from `b`. -/
def cycA : Fragment :=
  { defs := [objDef "A" [fld "x" "String"] 0],
    imports := [{ imports := ["*"], from_ := "b" }] }

/-- C6 witness: fragment `b`, importing everything from `a` (a cycle). -/
def cycB : Fragment :=
  { defs := [objDef "B" [fld "y" "String"] 1],
    imports := [{ imports := ["*"], from_ := "a" }] }

/-- C6 witness: a circular two-fragment environment. -/
def cycEnv : Env := [("a", cycA), ("b", cycB)]

/-- C8 counterexample: the root fragment's `type Query { a: String }`. -/
def c8q1 : Definition := objDef "Query" [fld "a" "String"] 10

/-- C8 counterexample: a second fragment's `type Query { b: Int }`. -/
def c8q2 : Definition := objDef "Query" [fld "b" "Int"] 11

/-- C8 counterexample: the second fragment's requested `type C { z: Int }`. -/
def c8c : Definition := objDef "C" [fld "z" "Int"] 12

/-- C10 counterexample, root fragment: `type A { b: B }` with
`# import B from "f1"`. -/
def tenA : Definition := objDef "A" [fld "b" "B"] 20

/-- C10 counterexample, fragment f1's requested `type B { q: Query }`. -/
def tenB : Definition := objDef "B" [fld "q" "Query"] 21

/-- C10 counterexample, fragment f1's unrequested `type Query { qb: B }`,
discovered transitively. -/
def tenQ : Definition := objDef "Query" [fld "qb" "B"] 22

/-! ### Basic lemmas about the embedded operations -/

theorem foldl_overwrite (f : Definition → String) (key : String) :
    ∀ (l : List Definition) (acc : Option Definition),
      l.foldl (fun a d => if f d == key then some d else a) acc =
        (l.reverse.find? fun d => f d == key).elim acc some := by
  intro l
  induction l with
  | nil => intro acc; simp
  | cons d rest ih =>
    intro acc
    simp only [List.foldl_cons, List.reverse_cons, List.find?_append]
    rw [ih]
    cases h : rest.reverse.find? (fun d => f d == key) with
    | some x => simp [h, Option.orElse]
    | none =>
      by_cases hd : f d == key <;> simp [h, hd, List.find?, Option.orElse]

theorem indexBy_eq_find (f : Definition → String) (l : List Definition) (key : String) :
    indexBy f l key = l.reverse.find? fun d => f d == key := by
  unfold indexBy
  rw [foldl_overwrite]
  cases l.reverse.find? fun d => f d == key <;> simp

theorem schemaMapOf_eq_find (allDefinitions : List Definition) (n : String) :
    schemaMapOf allDefinitions n = allDefinitions.find? fun d => getNodeName d == n := by
  unfold schemaMapOf
  rw [indexBy_eq_find, List.reverse_reverse]

/-- C7: the closure engine's name-to-definition universe lookup, built as
`indexBy(getNodeName, reverse(allDefinitions))` from the reversed flattened
definition collection, returns for every name the first matching definition
in flattened visitation order — so when a name is defined in more than one
visited fragment, the earliest-visited fragment's definition wins. -/
theorem c7_schemaMap_earliest_fragment_wins (fragments : List (List Definition))
    (n : String) :
    schemaMapOf fragments.flatten n =
      fragments.flatten.find? fun d => getNodeName d == n :=
  schemaMapOf_eq_find fragments.flatten n

theorem any_name_eq_false {pool : List Definition} {n : String}
    (h : ∀ d ∈ pool, getNodeName d ≠ n) :
    (pool.any fun d => getNodeName d == n) = false := by
  simp only [List.any_eq_false, beq_iff_eq]
  exact h

theorem contains_eq_false {l : List String} {n : String} (h : n ∉ l) :
    l.contains n = false := by
  simpa using h

theorem schemaMapOf_eq_none {U : List Definition} {n : String}
    (h : ∀ d ∈ U, getNodeName d ≠ n) : schemaMapOf U n = none := by
  rw [schemaMapOf_eq_find]
  simp only [List.find?_eq_none, beq_iff_eq]
  exact h

/-- C2: a field or argument node whose unwrapped named type is not a builtin
scalar, is not resolved by the definition pool, and resolves to nothing in
the whole traversed universe makes `collectNode` fail with exactly
`Field <fieldName>: Couldn't find type <typeName> in any of the schemas.`;
lifted to the closure engine's queue, the whole operation returns that error
(an `Except.error`, so no partial output); and the spec's `Post` scenario is
a concrete instance. -/
theorem c2_missing_type_error :
    (∀ (fuel : Nat) (pool : List Definition) (sm : String → Option Definition)
      (acc : List Definition) (nm : String) (ty : TypeRef) (dirs : List String),
      (∀ d ∈ pool, getNodeName d ≠ namedTypeName ty) →
      namedTypeName ty ∉ builtinTypes →
      sm (namedTypeName ty) = none →
      collectNodeCore (fuel + 1) pool sm acc nm ty dirs =
        .error ("Field " ++ nm ++ ": Couldn't find type " ++ namedTypeName ty ++
          " in any of the schemas.")) ∧
    (∀ (fuel : Nat) (U pool rest : List Definition) (visited : List String)
      (d : Definition) (f : FieldV),
      d.kind = "ObjectTypeDefinition" →
      getNodeName d ∉ visited →
      d.directives = [] → d.interfaces = [] → d.fields = [f] →
      (∀ x ∈ pool, getNodeName x ≠ namedTypeName f.type) →
      namedTypeName f.type ∉ builtinTypes →
      (∀ x ∈ U, getNodeName x ≠ namedTypeName f.type) →
      completeDefinitionPool (fuel + 2) U pool (d :: rest) visited =
        .error ("Field " ++ f.name ++ ": Couldn't find type " ++
          namedTypeName f.type ++ " in any of the schemas.")) ∧
    collectNodeCore 5 [] (schemaMapOf []) [] "posts" (.named "Post") [] =
      .error "Field posts: Couldn't find type Post in any of the schemas." := by
  refine ⟨?_, ?_, ?_⟩
  · intro fuel pool sm acc nm ty dirs hpool hbi hsm
    simp only [collectNodeCore, any_name_eq_false hpool, contains_eq_false hbi, hsm,
      Bool.not_false, Bool.and_self, if_true]
  · intro fuel U pool rest visited d f hkind hnv hdirs hints hfields hpool hbi hU
    have hnvb : visited.contains (getNodeName d) = false := contains_eq_false hnv
    have hsm : schemaMapOf U (namedTypeName f.type) = none := schemaMapOf_eq_none hU
    simp only [completeDefinitionPool, hnvb, Bool.false_eq_true, if_false]
    have hcollect : collectNewTypeDefinitions (fuel + 1) U pool d (schemaMapOf U) =
        .error ("Field " ++ f.name ++ ": Couldn't find type " ++
          namedTypeName f.type ++ " in any of the schemas.") := by
      simp only [collectNewTypeDefinitions, hkind, hdirs, hints, hfields]
      simp only [collectDirectiveList, collectInterfaceList, collectObjFieldList]
      simp only [collectNodeCore, any_name_eq_false hpool, contains_eq_false hbi, hsm]
      rfl
    rw [hcollect]
  · rfl

theorem mem_allSplits : ∀ (xs : List Char) (p s : List Char),
    (p, s) ∈ allSplits xs ↔ p ++ s = xs := by
  intro xs
  induction xs with
  | nil =>
    intro p s
    simp [allSplits, List.append_eq_nil]
  | cons c cs ih =>
    intro p s
    simp only [allSplits, List.mem_cons, List.mem_map, Prod.mk.injEq]
    constructor
    · rintro (⟨rfl, rfl⟩ | ⟨q, hq, rfl, rfl⟩)
      · rfl
      · simp [(ih q.1 q.2).mp hq]
    · intro h
      cases p with
      | nil => left; exact ⟨rfl, by simpa using h⟩
      | cons c' p' =>
        right
        simp only [List.cons_append, List.cons.injEq] at h
        exact ⟨(p', s), (ih p' s).mpr h.2, by rw [h.1], rfl⟩

theorem getLast?_of_all_eq {α : Type} {l : List α} {a : α}
    (hne : l ≠ []) (hall : ∀ x ∈ l, x = a) : l.getLast? = some a := by
  rw [List.getLast?_eq_getLast l hne]
  exact congrArg some (hall _ (List.getLast_mem hne))

theorem matchQuotedTail_noSemi (q1 q2 : Char) (pathL : List Char)
    (hq1 : q1 = '\'' ∨ q1 = '"') (hq2 : q2 = '\'' ∨ q2 = '"') :
    matchQuotedTail (q1 :: (pathL ++ [q2])) = some pathL := by
  simp only [matchQuotedTail]
  rw [if_pos hq1, if_pos]
  · rw [List.dropLast_concat]
  · refine ⟨by simp, ?_⟩
    rw [List.getLast?_concat]
    rcases hq2 with rfl | rfl
    · exact Or.inl rfl
    · exact Or.inr rfl

theorem matchQuotedTail_semi (q1 q2 : Char) (pathL : List Char)
    (hq1 : q1 = '\'' ∨ q1 = '"') (hq2 : q2 = '\'' ∨ q2 = '"') :
    matchQuotedTail (q1 :: (pathL ++ [q2] ++ [';'])) = some pathL := by
  simp only [matchQuotedTail]
  rw [if_pos hq1]
  have h1 : (pathL ++ [q2] ++ [';']).getLast? = some ';' := List.getLast?_concat _
  rw [if_neg, if_pos]
  · rw [List.dropLast_concat, List.dropLast_concat]
  · refine ⟨h1, ?_⟩
    rw [List.dropLast_concat, List.getLast?_concat]
    rcases hq2 with rfl | rfl
    · exact Or.inl rfl
    · exact Or.inr rfl
  · intro hcon
    rcases hcon.2 with h | h <;> rw [h1] at h <;> simp at h

theorem toList_asString (l : List Char) : (l.asString).toList = l := rfl

theorem matchImportLine_star (tail pathL : List Char)
    (htail : matchQuotedTail tail = some pathL) :
    matchImportLine (("import * from ".toList ++ tail).asString) =
      some (['*'], pathL) := by
  have hsplit : ("import * from ".toList ++ tail) =
      "import ".toList ++ ("* from ".toList ++ tail) := rfl
  simp only [matchImportLine, toList_asString, hsplit]
  rw [if_pos]
  · have hdrop : ("import ".toList ++ ("* from ".toList ++ tail)).drop 7 =
        "* from ".toList ++ tail := by
      have : ("import ".toList : List Char).length = 7 := rfl
      rw [← this, List.drop_left]
    rw [hdrop]
    have htake7 : ("* from ".toList ++ tail).take 7 = "* from ".toList := by
      have : ("* from ".toList : List Char).length = 7 := rfl
      rw [← this, List.take_left]
    have hdrop7 : ("* from ".toList ++ tail).drop 7 = tail := by
      have : ("* from ".toList : List Char).length = 7 := rfl
      rw [← this, List.drop_left]
    rw [if_pos]
    · rw [hdrop7, htail]
    · exact ⟨htake7, by rw [hdrop7, htail]; rfl⟩
  · have : ("import ".toList : List Char).length = 7 := rfl
    rw [← this, List.take_left]

theorem matchImportLine_named (specL tail pathL : List Char)
    (htail : matchQuotedTail tail = some pathL)
    (hstar : specL ≠ ['*'])
    (huniq : ∀ pre suf, pre ++ " from ".toList ++ suf = specL ++ " from ".toList ++ tail →
      pre = specL) :
    matchImportLine
      (("import ".toList ++ specL ++ " from ".toList ++ tail).asString) =
      some (specL, pathL) := by
  have hassoc : "import ".toList ++ specL ++ " from ".toList ++ tail =
      "import ".toList ++ (specL ++ " from ".toList ++ tail) := by
    simp [List.append_assoc]
  simp only [matchImportLine, toList_asString, hassoc]
  rw [if_pos]
  · have hdrop : ("import ".toList ++ (specL ++ " from ".toList ++ tail)).drop 7 =
        specL ++ " from ".toList ++ tail := by
      have : ("import ".toList : List Char).length = 7 := rfl
      rw [← this, List.drop_left]
    rw [hdrop]
    rw [if_neg]
    · apply getLast?_of_all_eq
      · apply List.ne_nil_of_mem (a := (specL, pathL))
        apply List.mem_filterMap.mpr
        refine ⟨(specL, " from ".toList ++ tail), ?_, ?_⟩
        · exact (mem_allSplits _ _ _).mpr (by simp [List.append_assoc])
        · have ht6 : (" from ".toList ++ tail).take 6 = " from ".toList := by
            have : (" from ".toList : List Char).length = 6 := rfl
            rw [← this, List.take_left]
          have hd6 : (" from ".toList ++ tail).drop 6 = tail := by
            have : (" from ".toList : List Char).length = 6 := rfl
            rw [← this, List.drop_left]
          simp only [ht6, if_pos, hd6, htail]
      · intro x hx
        obtain ⟨⟨p, s⟩, hps, hg⟩ := List.mem_filterMap.mp hx
        by_cases h6 : s.take 6 = " from ".toList
        · rw [if_pos h6] at hg
          cases hq : matchQuotedTail (s.drop 6) with
          | none => rw [hq] at hg; cases hg
          | some path' =>
            rw [hq] at hg
            have hx' : x = (p, path') := by
              cases hg; rfl
            have hr : p ++ s = specL ++ " from ".toList ++ tail :=
              (mem_allSplits _ _ _).mp hps
            have hs : s = " from ".toList ++ s.drop 6 := by
              conv_lhs => rw [← List.take_append_drop 6 s]
              rw [h6]
            rw [hs, ← List.append_assoc] at hr
            have hp : p = specL := huniq p (s.drop 6) hr
            rw [hp] at hr hx'
            have hdt : s.drop 6 = tail := by
              have h2 : specL ++ (" from ".toList ++ s.drop 6) =
                  specL ++ (" from ".toList ++ tail) := by
                simpa [List.append_assoc] using hr
              exact List.append_cancel_left (List.append_cancel_left h2)
            rw [hdt, htail] at hq
            cases hq
            rw [hx']
        · rw [if_neg h6] at hg
          cases hg
    · rintro ⟨h7, -⟩
      apply hstar
      have hr : specL ++ " from ".toList ++ tail =
          "* from ".toList ++ (specL ++ " from ".toList ++ tail).drop 7 := by
        conv_lhs => rw [← List.take_append_drop 7 (specL ++ " from ".toList ++ tail)]
        rw [h7]
      have : ['*'] ++ " from ".toList ++ (specL ++ " from ".toList ++ tail).drop 7 =
          specL ++ " from ".toList ++ tail := by
        rw [List.append_assoc]
        exact hr.symm
      exact (huniq _ _ this).symm
  · have : ("import ".toList : List Char).length = 7 := rfl
    rw [← this, List.take_left]

/-- C9 counterexample: the line `import , from "x"` is not `import <spec>
from <quoted-path>` for a `<spec>` that is `*` or a comma-separated list of
bare identifiers (its spec text is a bare comma, splitting into two empty
entries), yet `parseImportLine` does not throw: it returns the two empty
"identifiers".  This refutes "throws if and only if the line does not match
this grammar or the quoted path is empty". -/
theorem c9_cex_non_grammar_line_accepted :
    parseImportLine "import , from \"x\"" =
      .ok { imports := ["", ""], from_ := "x" } ∧
    (["", ""].all isBareIdentifier) = false :=
  ⟨rfl, by decide⟩

/-- C9 (amended): `parseImportLine` matches the line against the regex-shaped
grammar `import (\*|(.*)) from ('|")(.*)('|");?` — the spec text before
`" from "` is arbitrary (not necessarily identifiers) and the two quotes
need not pair.  On a match it returns `['*']` when the matched spec is
exactly `*`, otherwise the spec split on commas with entries trimmed, and
`from` is the matched quoted path; it throws when the line does not start
with `import `, and when the matched path is empty.  Stated for every
spec/path/tail in which `" from "` occurs at a unique position. -/
theorem c9_parseImportLine_amended :
    (∀ (tail pathL : List Char), matchQuotedTail tail = some pathL → pathL ≠ [] →
      parseImportLine (("import * from ".toList ++ tail).asString) =
        .ok { imports := ["*"], from_ := pathL.asString }) ∧
    (∀ (specL tail pathL : List Char), matchQuotedTail tail = some pathL →
      specL ≠ ['*'] →
      (∀ pre suf, pre ++ " from ".toList ++ suf =
        specL ++ " from ".toList ++ tail → pre = specL) →
      pathL ≠ [] →
      parseImportLine (("import ".toList ++ specL ++ " from ".toList ++ tail).asString) =
        .ok { imports := (splitOnChar ',' specL).map fun d => (trimChars d).asString,
              from_ := pathL.asString }) ∧
    (∀ (tail : List Char), matchQuotedTail tail = some [] →
      parseImportLine (("import * from ".toList ++ tail).asString) =
        .error "Too few regex matches") ∧
    (∀ (line : String), line.toList.take 7 ≠ "import ".toList →
      parseImportLine line = .error "Too few regex matches") := by
  refine ⟨?_, ?_, ?_, ?_⟩
  · intro tail pathL htail hne
    rw [parseImportLine, matchImportLine_star tail pathL htail]
    dsimp only
    rw [if_neg hne, if_pos rfl]
  · intro specL tail pathL htail hstar huniq hne
    rw [parseImportLine, matchImportLine_named specL tail pathL htail hstar huniq]
    dsimp only
    rw [if_neg hne, if_neg hstar]
  · intro tail htail
    rw [parseImportLine, matchImportLine_star tail [] htail]
    dsimp only
    rw [if_pos rfl]
  · intro line hline
    have : matchImportLine line = none := by
      rw [matchImportLine, if_neg hline]
    rw [parseImportLine, this]

/-- C5 (amended): a wildcard import evaluated on a non-root fragment selects
exactly the fragment's Object-kind definitions whose name occurs among the
previously visited fragments' definitions — their full definition lists, not
only their requested subsets — excluding the root-field names. -/
theorem c5_wildcard_subsequent_uses_all_definitions
    (defs : List Definition) (allDefs : List (List Definition))
    (res : List Definition) (hlen : 1 < allDefs.length)
    (hres : filterImportedDefinitions ["*"] defs allDefs = some res) :
    ∀ d, d ∈ res ↔ d ∈ defs ∧ d.kind = "ObjectTypeDefinition" ∧
      ∃ p ∈ allDefs.dropLast.flatten,
        getNodeName p = d.name ∧ getNodeName p ∉ rootFields := by
  intro d
  rw [filterImportedDefinitions] at hres
  rw [if_pos (by decide), if_pos] at hres
  · have hr : res = defs.filter fun td =>
        td.kind == "ObjectTypeDefinition" &&
          (indexBy getNodeName
            (allDefs.dropLast.flatten.filter fun x =>
              !(rootFields.contains (getNodeName x))) td.name).isSome := by
      exact (Option.some.injEq _ _ ▸ hres).symm
    subst hr
    rw [List.mem_filter, Bool.and_eq_true, beq_iff_eq]
    constructor
    · rintro ⟨hmem, hkind, hsome⟩
      refine ⟨hmem, hkind, ?_⟩
      rw [indexBy_eq_find, List.find?_isSome] at hsome
      obtain ⟨p, hp, hpn⟩ := hsome
      rw [List.mem_reverse, List.mem_filter] at hp
      exact ⟨p, hp.1, by simpa using hpn, by simpa using hp.2⟩
    · rintro ⟨hmem, hkind, p, hp, hpn, hpr⟩
      refine ⟨hmem, hkind, ?_⟩
      rw [indexBy_eq_find, List.find?_isSome]
      exact ⟨p, by rw [List.mem_reverse, List.mem_filter]
                   exact ⟨hp, by simpa using hpr⟩, by simpa using hpn⟩
  · simp only [Bool.and_eq_true, beq_iff_eq, decide_eq_true_eq]
    exact ⟨⟨rfl, rfl⟩, hlen⟩

/-- C5 witness: in the three-fragment counterexample environment the
wildcard on fragment f2 selects `type C` because f1 *defines* a `C`. -/
theorem c5_amended_witness :
    objDef "C" [fld "z" "Int"] 3 ∈ [objDef "C" [fld "z" "Int"] 3] ↔
      objDef "C" [fld "z" "Int"] 3 ∈ c5F2.defs ∧
      (objDef "C" [fld "z" "Int"] 3).kind = "ObjectTypeDefinition" ∧
      ∃ p ∈ ([c5Root.defs, c5F1.defs, c5F2.defs].dropLast).flatten,
        getNodeName p = (objDef "C" [fld "z" "Int"] 3).name ∧
          getNodeName p ∉ rootFields :=
  c5_wildcard_subsequent_uses_all_definitions c5F2.defs
    [c5Root.defs, c5F1.defs, c5F2.defs] [objDef "C" [fld "z" "Int"] 3]
    (by decide) (by decide) _

/-- C5 counterexample: running the traversal on the environment in which the
root requests only `B` from f1, f1 defines an unrequested `C` and wildcard
imports f2, the wildcard requests f2's `C` — although `C` does not occur
among the previously visited fragments' *requested* definitions (their names
are `Query` and `B`).  This refutes the claim's "requested definitions"
reading. -/
theorem c5_cex_wildcard_pulls_unrequested :
    (collectDefinitions c5Env 10 ["*"] "root" ⟨[], [], []⟩).map TravState.typeDefs =
      some [[objDef "Query" [fld "b" "B"] 0], [objDef "B" [fld "x" "String"] 1],
        [objDef "C" [fld "z" "Int"] 3]] ∧
    "C" ∉ ([objDef "Query" [fld "b" "B"] 0] ++
      [objDef "B" [fld "x" "String"] 1]).map getNodeName :=
  ⟨by decide, by decide⟩

theorem mem_headD_flatten {x : Definition} {ls : List (List Definition)}
    (h : x ∈ ls.headD []) : x ∈ ls.flatten := by
  cases ls with
  | nil => cases h
  | cons hd tl => exact List.mem_flatten.mpr ⟨hd, List.mem_cons_self _ _, h⟩

/-- C8 (amended): every definition of the closure engine's initial pool
(`firstSet`, as the merge loop left it in memory: merged first instances
with later same-named duplicates retained, followed by the root fragment's
other requested definitions) also occurs in the initial queue (the full
flattened requested definitions); the queue is in general a strict superset,
not equal to the pool. -/
theorem c8_initial_pool_in_queue (mergeableTypes : List String)
    (typeDefs : List (List Definition)) :
    ∀ d ∈ initialPool mergeableTypes typeDefs,
      d ∈ initialQueue mergeableTypes typeDefs := by
  intro d hd
  rw [initialPool, firstSetOf] at hd
  rw [initialQueue]
  obtain ⟨x, hx, hux⟩ := List.mem_map.mp hd
  refine List.mem_map.mpr ⟨x, ?_, hux⟩
  rcases List.mem_append.mp hx with hx | hx
  · exact (List.mem_filter.mp hx).1
  · exact mem_headD_flatten (List.mem_filter.mp hx).1

/-- C8 witness: in the two-fragment `Query`/`Query,C` scenario the merged
first `Query` instance of the initial pool occurs in the initial queue. -/
theorem c8_initial_pool_in_queue_witness :
    ({ c8q1 with fields := [fld "a" "String", fld "b" "Int"] } : Definition) ∈
      initialQueue [] [[c8q1], [c8q2, c8c]] := by
  apply c8_initial_pool_in_queue
  rw [show initialPool [] [[c8q1], [c8q2, c8c]] =
    [{ c8q1 with fields := [fld "a" "String", fld "b" "Int"] }, c8q2] from by decide]
  exact List.mem_cons_self _ _

/-- C8 counterexample: with requested definitions `[[Query{a}], [Query{b},
C]]`, the initial pool is the mutated `firstSet` — the merged first `Query`
followed by the *retained* later `Query` duplicate — while the initial queue
additionally contains the second fragment's `C`; pool and queue are not the
same definitions. -/
theorem c8_cex_pool_ne_queue :
    initialPool [] [[c8q1], [c8q2, c8c]] =
      [{ c8q1 with fields := [fld "a" "String", fld "b" "Int"] }, c8q2] ∧
    initialQueue [] [[c8q1], [c8q2, c8c]] =
      [{ c8q1 with fields := [fld "a" "String", fld "b" "Int"] }, c8q2, c8c] ∧
    initialPool [] [[c8q1], [c8q2, c8c]] ≠ initialQueue [] [[c8q1], [c8q2, c8c]] :=
  ⟨by decide, by decide, by decide⟩

theorem getNodeName_mergeContent (x t : Definition) :
    getNodeName (mergeContent x t) = getNodeName x := by
  rw [mergeContent]
  by_cases h : t.kind == "SchemaDefinition" <;> simp [h, getNodeName]

theorem mergeInto_filter_ne (t : Definition) (n : String)
    (hne : getNodeName t ≠ n) :
    ∀ merged : List Definition,
      (mergeInto t merged).filter (fun d => getNodeName d == n) =
        merged.filter fun d => getNodeName d == n := by
  intro merged
  induction merged with
  | nil => rfl
  | cons x rest ih =>
    rw [mergeInto]
    by_cases hx : getNodeName x == getNodeName t
    · rw [if_pos hx]
      have hxn : (getNodeName x == n) = false := by
        simp only [beq_iff_eq] at hx
        simp only [beq_eq_false_iff_ne, hx]
        exact hne
      have hmn : (getNodeName (mergeContent x t) == n) = false := by
        rw [getNodeName_mergeContent]; exact hxn
      simp only [List.filter_cons, hxn, Bool.false_eq_true, if_false, hmn]
    · rw [if_neg hx]
      simp only [List.filter_cons]
      by_cases hxn : getNodeName x == n
      · rw [hxn, ih]
      · simp only [hxn, Bool.false_eq_true, if_false]
        exact ih

theorem mergeInto_filter_single (t : Definition) (n : String) (m : Definition)
    (hn : getNodeName t = n) :
    ∀ merged : List Definition,
      merged.filter (fun d => getNodeName d == n) = [m] →
      (mergeInto t merged).filter (fun d => getNodeName d == n) =
        [mergeContent m t] := by
  intro merged
  induction merged with
  | nil => intro h; cases h
  | cons x rest ih =>
    intro hm
    rw [mergeInto]
    by_cases hx : getNodeName x == getNodeName t
    · rw [if_pos hx]
      have hxn : (getNodeName x == n) = true := by
        simp only [beq_iff_eq] at hx ⊢
        rw [hx, hn]
      rw [List.filter_cons, hxn] at hm
      simp only [if_true] at hm
      have hxm : x = m := by injection hm
      have hrest : rest.filter (fun d => getNodeName d == n) = [] := by
        injection hm
      have hmc : (getNodeName (mergeContent x t) == n) = true := by
        rw [getNodeName_mergeContent]; exact hxn
      simp only [List.filter_cons, hmc, if_true, hrest, hxm]
      rw [if_pos]
      rw [getNodeName_mergeContent, ← hxm]
      exact hxn
    · rw [if_neg hx]
      rw [List.filter_cons] at hm
      simp only [List.filter_cons]
      by_cases hxn : getNodeName x == n
      · exfalso
        simp only [beq_iff_eq] at hx hxn
        exact hx (by rw [hxn, hn])
      · simp only [hxn, Bool.false_eq_true, if_false] at hm ⊢
        exact ih hm

theorem contains_iff_mem_str (l : List String) (n : String) :
    l.contains n = true ↔ n ∈ l := by
  induction l with
  | nil => simp
  | cons x xs ih =>
    simp only [List.contains_cons, Bool.or_eq_true, beq_iff_eq, List.mem_cons, ih]

theorem mergeLoop_filter_seen (n : String) :
    ∀ (rest : List Definition) (processed : List String)
      (merged : List Definition) (m : Definition),
      n ∈ processed →
      merged.filter (fun d => getNodeName d == n) = [m] →
      (mergeLoop rest processed merged).filter (fun d => getNodeName d == n) =
        [(rest.filter fun d => getNodeName d == n).foldl mergeContent m] := by
  intro rest
  induction rest with
  | nil =>
    intro processed merged m _ hm
    simpa [mergeLoop] using hm
  | cons t ts ih =>
    intro processed merged m hn hm
    rw [mergeLoop]
    by_cases hc : processed.contains (getNodeName t)
    · rw [if_pos hc]
      by_cases htn : getNodeName t = n
      · have hsingle := mergeInto_filter_single t n m htn merged hm
        rw [List.filter_cons]
        have htb : (getNodeName t == n) = true := by simpa using htn
        rw [htb]
        simp only [if_true, List.foldl_cons]
        exact ih processed (mergeInto t merged) (mergeContent m t) hn hsingle
      · have hpres := mergeInto_filter_ne t n htn merged
        rw [List.filter_cons]
        have htb : (getNodeName t == n) = false := by simpa using htn
        rw [htb]
        simp only [Bool.false_eq_true, if_false]
        exact ih processed (mergeInto t merged) m hn (hpres.trans hm)
    · rw [if_neg hc]
      have htn : getNodeName t ≠ n := by
        intro he
        exact hc ((contains_iff_mem_str _ _).mpr (he ▸ hn))
      have hm' : (merged ++ [t]).filter (fun d => getNodeName d == n) = [m] := by
        rw [List.filter_append, hm]
        have htb2 : (getNodeName t == n) = false := by simpa using htn
        have : ([t].filter fun d => getNodeName d == n) = [] := by
          simp [List.filter, htb2]
        rw [this, List.append_nil]
      rw [List.filter_cons]
      have htb : (getNodeName t == n) = false := by simpa using htn
      rw [htb]
      simp only [Bool.false_eq_true, if_false]
      exact ih _ _ m (List.mem_append_left _ hn) hm'

theorem mergeLoop_filter_unseen (n : String) :
    ∀ (rest : List Definition) (processed : List String)
      (merged : List Definition),
      n ∉ processed →
      merged.filter (fun d => getNodeName d == n) = [] →
      (mergeLoop rest processed merged).filter (fun d => getNodeName d == n) =
        match rest.filter (fun d => getNodeName d == n) with
        | [] => []
        | d :: dups => [dups.foldl mergeContent d] := by
  intro rest
  induction rest with
  | nil =>
    intro processed merged _ hm
    simpa [mergeLoop] using hm
  | cons t ts ih =>
    intro processed merged hn hm
    rw [mergeLoop]
    by_cases hc : processed.contains (getNodeName t)
    · rw [if_pos hc]
      have htn : getNodeName t ≠ n := by
        intro he
        exact hn ((contains_iff_mem_str _ _).mp (he ▸ hc))
      have hpres := mergeInto_filter_ne t n htn merged
      rw [List.filter_cons]
      have htb : (getNodeName t == n) = false := by simpa using htn
      rw [htb]
      simp only [Bool.false_eq_true, if_false]
      exact ih processed (mergeInto t merged) hn (hpres.trans hm)
    · rw [if_neg hc]
      by_cases htn : getNodeName t = n
      · have htb2 : (getNodeName t == n) = true := by simpa using htn
        have hm' : (merged ++ [t]).filter (fun d => getNodeName d == n) = [t] := by
          rw [List.filter_append, hm]
          simp [List.filter, htb2]
        have hmem : n ∈ processed ++ [getNodeName t] := by
          rw [htn]
          exact List.mem_append_right _ (List.mem_singleton_self _)
        have := mergeLoop_filter_seen n ts (processed ++ [getNodeName t])
          (merged ++ [t]) t hmem hm'
        rw [this, List.filter_cons]
        rw [htb2]
        simp only [if_true]
      · have htb2 : (getNodeName t == n) = false := by simpa using htn
        have hm' : (merged ++ [t]).filter (fun d => getNodeName d == n) = [] := by
          rw [List.filter_append, hm]
          simp [List.filter, htb2]
        have hmem : n ∉ processed ++ [getNodeName t] := by
          intro hx
          rcases List.mem_append.mp hx with hx | hx
          · exact hn hx
          · exact htn ((List.mem_singleton.mp hx).symm)
        have := ih (processed ++ [getNodeName t]) (merged ++ [t]) hmem hm'
        rw [this, List.filter_cons, htb2]
        simp only [Bool.false_eq_true, if_false]

/-- C4: in the root-type merge loop, all same-named instances collapse onto
the first-seen instance — the merged list holds exactly one entry per name,
namely the first instance with every later instance's content folded in by
`mergeContent` (field concatenation, or operation-type concatenation for a
later Schema-kind instance), in first-seen order; later instances are
discarded.  For all-non-Schema (resp. all-Schema) duplicates the fold is
literally the concatenation of their `fields` (resp. `operationTypes`), and
two fragments defining `type Query { a: String }` and `type Query { b: Int }`
yield one `Query` with fields `a` then `b` end to end. -/
theorem c4_root_type_merge :
    (∀ (firstSet : List Definition) (n : String),
      (mergeLoop firstSet [] []).filter (fun d => getNodeName d == n) =
        match firstSet.filter (fun d => getNodeName d == n) with
        | [] => []
        | d :: dups => [dups.foldl mergeContent d]) ∧
    (∀ (d : Definition) (dups : List Definition),
      (∀ t ∈ dups, t.kind ≠ "SchemaDefinition") →
      dups.foldl mergeContent d =
        { d with fields := d.fields ++ (dups.map Definition.fields).flatten }) ∧
    (∀ (d : Definition) (dups : List Definition),
      (∀ t ∈ dups, t.kind = "SchemaDefinition") →
      dups.foldl mergeContent d =
        { d with operationTypes :=
            d.operationTypes ++ (dups.map Definition.operationTypes).flatten }) ∧
    importSchemaCore 50 [] [[exQ1], [exQ2]] [[exQ1], [exQ2]] =
      .ok [{ exQ1 with fields := [fld "a" "String", fld "b" "Int"] }] := by
  refine ⟨?_, ?_, ?_, by decide⟩
  · intro firstSet n
    exact mergeLoop_filter_unseen n firstSet [] [] (List.not_mem_nil n) rfl
  · intro d dups
    induction dups generalizing d with
    | nil => intro _; simp
    | cons t ts ih =>
      intro h
      have hts : ∀ x ∈ ts, x.kind ≠ "SchemaDefinition" := fun x hx =>
        h x (List.mem_cons_of_mem _ hx)
      have ht : t.kind ≠ "SchemaDefinition" := h t (List.mem_cons_self _ _)
      rw [List.foldl_cons, ih _ hts]
      rw [mergeContent, if_neg (by simpa using ht)]
      simp [List.append_assoc]
  · intro d dups
    induction dups generalizing d with
    | nil => intro _; simp
    | cons t ts ih =>
      intro h
      have hts : ∀ x ∈ ts, x.kind = "SchemaDefinition" := fun x hx =>
        h x (List.mem_cons_of_mem _ hx)
      have ht : t.kind = "SchemaDefinition" := h t (List.mem_cons_self _ _)
      rw [List.foldl_cons, ih _ hts]
      rw [mergeContent, if_pos (by simpa using ht)]
      simp [List.append_assoc]

theorem collect_mono (fuel : Nat) (pool : List Definition)
    (sm : String → Option Definition) :
    (∀ (acc : List Definition) (nm : String) (ty : TypeRef) (dirs : List String)
      (acc' : List Definition),
      collectNodeCore fuel pool sm acc nm ty dirs = .ok acc' →
        ∀ x ∈ acc, x ∈ acc') ∧
    (∀ (acc : List Definition) (args : List ArgV) (acc' : List Definition),
      collectArgList fuel pool sm acc args = .ok acc' → ∀ x ∈ acc, x ∈ acc') ∧
    (∀ (acc : List Definition) (dn : String) (acc' : List Definition),
      collectDirectiveE fuel pool sm acc dn = .ok acc' → ∀ x ∈ acc, x ∈ acc') ∧
    (∀ (acc : List Definition) (dns : List String) (acc' : List Definition),
      collectDirectiveList fuel pool sm acc dns = .ok acc' → ∀ x ∈ acc, x ∈ acc') := by
  induction fuel with
  | zero =>
    refine ⟨?_, ?_, ?_, ?_⟩ <;> intro acc
    · intro nm ty dirs acc' h; cases h
    · intro args acc' h; cases h
    · intro dn acc' h; cases h
    · intro dns acc' h; cases h
  | succ fuel ih =>
    obtain ⟨ihN, ihA, ihE, ihL⟩ := ih
    refine ⟨?_, ?_, ?_, ?_⟩
    · intro acc nm ty dirs acc' h x hx
      rw [collectNodeCore] at h
      split at h
      · cases h
      · rename_i acc1 hstep
        refine ihL acc1 dirs acc' h x ?_
        split at hstep
        · split at hstep
          · cases hstep
          · cases hstep; exact List.mem_append_left _ hx
        · cases hstep; exact hx
    · intro acc args acc' h x hx
      match args with
      | [] => cases h; exact hx
      | a :: rest =>
        rw [collectArgList] at h
        split at h
        · cases h
        · rename_i acc1 h1
          exact ihA acc1 rest acc' h x (ihN acc a.name a.type a.directives acc1 h1 x hx)
    · intro acc dn acc' h x hx
      rw [collectDirectiveE] at h
      split at h
      · split at h
        · cases h
        · rename_i dirDef hdef
          split at h
          · cases h
          · rename_i acc1 h1
            cases h
            exact List.mem_append_left _ (ihA acc dirDef.arguments acc1 h1 x hx)
      · cases h; exact hx
    · intro acc dns acc' h x hx
      match dns with
      | [] => cases h; exact hx
      | dn :: rest =>
        rw [collectDirectiveList] at h
        split at h
        · cases h
        · rename_i acc1 h1
          exact ihL acc1 rest acc' h x (ihE acc dn acc1 h1 x hx)

theorem resolvedIn_mono {pool acc acc' : List Definition} {builtins : List String}
    {n : String} (hsub : ∀ x ∈ acc, x ∈ acc') (h : resolvedIn pool acc builtins n) :
    resolvedIn pool acc' builtins n := by
  rcases h with h | h | ⟨m, hm, hn⟩
  · exact Or.inl h
  · exact Or.inr (Or.inl h)
  · exact Or.inr (Or.inr ⟨m, hsub m hm, hn⟩)

theorem resolvedIn_weaken {pool acc : List Definition} {b b' : List String}
    {n : String} (hb : ∀ x ∈ b, x ∈ b') (h : resolvedIn pool acc b n) :
    resolvedIn pool acc b' n := by
  rcases h with h | h
  · exact Or.inl (hb n h)
  · exact Or.inr h

theorem resolved_of_pool_any {pool acc : List Definition} {b : List String}
    {n : String} (h : (pool.any fun d => getNodeName d == n) = true) :
    resolvedIn pool acc b n := by
  rw [List.any_eq_true] at h
  obtain ⟨d, hd, he⟩ := h
  exact Or.inr (Or.inl ⟨d, hd, by simpa using he⟩)

theorem resolved_of_builtin {pool acc : List Definition} {b : List String}
    {n : String} (h : b.contains n = true) : resolvedIn pool acc b n :=
  Or.inl ((contains_iff_mem_str _ _).mp h)

theorem resolved_of_guard {pool acc : List Definition} {b : List String}
    {n : String}
    (h : ¬((!(pool.any fun d => getNodeName d == n)) && !(b.contains n)) = true) :
    resolvedIn pool acc b n := by
  rw [Bool.and_eq_true, Bool.not_eq_true', Bool.not_eq_true'] at h
  rcases Decidable.not_and_iff_or_not.mp h with h | h
  · exact resolved_of_pool_any (Bool.of_not_eq_false h)
  · exact resolved_of_builtin (Bool.of_not_eq_false h)

theorem collect_mem (fuel : Nat) (pool : List Definition)
    (sm : String → Option Definition) (U : List Definition)
    (hsm : ∀ n m, sm n = some m → m ∈ U) :
    (∀ (acc : List Definition) (nm : String) (ty : TypeRef) (dirs : List String)
      (acc' : List Definition),
      collectNodeCore fuel pool sm acc nm ty dirs = .ok acc' →
        ∀ x ∈ acc', x ∈ acc ∨ x ∈ U) ∧
    (∀ (acc : List Definition) (args : List ArgV) (acc' : List Definition),
      collectArgList fuel pool sm acc args = .ok acc' →
        ∀ x ∈ acc', x ∈ acc ∨ x ∈ U) ∧
    (∀ (acc : List Definition) (dn : String) (acc' : List Definition),
      collectDirectiveE fuel pool sm acc dn = .ok acc' →
        ∀ x ∈ acc', x ∈ acc ∨ x ∈ U) ∧
    (∀ (acc : List Definition) (dns : List String) (acc' : List Definition),
      collectDirectiveList fuel pool sm acc dns = .ok acc' →
        ∀ x ∈ acc', x ∈ acc ∨ x ∈ U) := by
  induction fuel with
  | zero =>
    refine ⟨?_, ?_, ?_, ?_⟩ <;> intro acc
    · intro nm ty dirs acc' h; cases h
    · intro args acc' h; cases h
    · intro dn acc' h; cases h
    · intro dns acc' h; cases h
  | succ fuel ih =>
    obtain ⟨ihN, ihA, ihE, ihL⟩ := ih
    refine ⟨?_, ?_, ?_, ?_⟩
    · intro acc nm ty dirs acc' h x hx
      rw [collectNodeCore] at h
      split at h
      · cases h
      · rename_i acc1 hstep
        rcases ihL acc1 dirs acc' h x hx with hx1 | hx1
        · split at hstep
          · split at hstep
            · cases hstep
            · rename_i m hm
              cases hstep
              rcases List.mem_append.mp hx1 with hx2 | hx2
              · exact Or.inl hx2
              · exact Or.inr (List.mem_singleton.mp hx2 ▸ hsm _ m hm)
          · cases hstep; exact Or.inl hx1
        · exact Or.inr hx1
    · intro acc args acc' h x hx
      match args with
      | [] => cases h; exact Or.inl hx
      | a :: rest =>
        rw [collectArgList] at h
        split at h
        · cases h
        · rename_i acc1 h1
          rcases ihA acc1 rest acc' h x hx with hx1 | hx1
          · exact ihN acc a.name a.type a.directives acc1 h1 x hx1
          · exact Or.inr hx1
    · intro acc dn acc' h x hx
      rw [collectDirectiveE] at h
      split at h
      · split at h
        · cases h
        · rename_i dirDef hdef
          split at h
          · cases h
          · rename_i acc1 h1
            cases h
            rcases List.mem_append.mp hx with hx1 | hx1
            · exact ihA acc dirDef.arguments acc1 h1 x hx1
            · exact Or.inr (List.mem_singleton.mp hx1 ▸ hsm _ dirDef hdef)
      · cases h; exact Or.inl hx
    · intro acc dns acc' h x hx
      match dns with
      | [] => cases h; exact Or.inl hx
      | dn :: rest =>
        rw [collectDirectiveList] at h
        split at h
        · cases h
        · rename_i acc1 h1
          rcases ihL acc1 rest acc' h x hx with hx1 | hx1
          · exact ihE acc dn acc1 h1 x hx1
          · exact Or.inr hx1

theorem collect_resolved (fuel : Nat) (pool : List Definition)
    (sm : String → Option Definition)
    (hname : ∀ n m, sm n = some m → getNodeName m = n) :
    (∀ (acc : List Definition) (nm : String) (ty : TypeRef) (dirs : List String)
      (acc' : List Definition),
      collectNodeCore fuel pool sm acc nm ty dirs = .ok acc' →
        resolvedIn pool acc' builtinTypes (namedTypeName ty) ∧
        ∀ dn ∈ dirs, resolvedIn pool acc' builtinDirectives dn) ∧
    (∀ (acc : List Definition) (args : List ArgV) (acc' : List Definition),
      collectArgList fuel pool sm acc args = .ok acc' →
        ∀ a ∈ args, resolvedIn pool acc' builtinTypes (namedTypeName a.type) ∧
          ∀ dn ∈ a.directives, resolvedIn pool acc' builtinDirectives dn) ∧
    (∀ (acc : List Definition) (dn : String) (acc' : List Definition),
      collectDirectiveE fuel pool sm acc dn = .ok acc' →
        resolvedIn pool acc' builtinDirectives dn) ∧
    (∀ (acc : List Definition) (dns : List String) (acc' : List Definition),
      collectDirectiveList fuel pool sm acc dns = .ok acc' →
        ∀ dn ∈ dns, resolvedIn pool acc' builtinDirectives dn) := by
  induction fuel with
  | zero =>
    refine ⟨?_, ?_, ?_, ?_⟩ <;> intro acc
    · intro nm ty dirs acc' h; cases h
    · intro args acc' h; cases h
    · intro dn acc' h; cases h
    · intro dns acc' h; cases h
  | succ fuel ih =>
    obtain ⟨ihN, ihA, ihE, ihL⟩ := ih
    refine ⟨?_, ?_, ?_, ?_⟩
    · intro acc nm ty dirs acc' h
      rw [collectNodeCore] at h
      split at h
      · cases h
      · rename_i acc1 hstep
        have hmonoL := (collect_mono fuel pool sm).2.2.2 acc1 dirs acc' h
        refine ⟨?_, ihL acc1 dirs acc' h⟩
        split at hstep
        · split at hstep
          · cases hstep
          · rename_i m hm
            cases hstep
            refine resolvedIn_mono hmonoL (Or.inr (Or.inr ?_))
            exact ⟨m, List.mem_append_right _ (List.mem_singleton_self m),
              hname _ m hm⟩
        · rename_i hguard
          cases hstep
          exact resolvedIn_mono hmonoL (resolved_of_guard hguard)
    · intro acc args acc' h a ha
      match args with
      | [] => cases ha
      | b :: rest =>
        rw [collectArgList] at h
        split at h
        · cases h
        · rename_i acc1 h1
          rcases List.mem_cons.mp ha with rfl | ha
          · have hmono := (collect_mono fuel pool sm).2.1 acc1 rest acc' h
            have := ihN acc a.name a.type a.directives acc1 h1
            exact ⟨resolvedIn_mono hmono this.1,
              fun dn hdn => resolvedIn_mono hmono (this.2 dn hdn)⟩
          · exact ihA acc1 rest acc' h a ha
    · intro acc dn acc' h
      rw [collectDirectiveE] at h
      split at h
      · split at h
        · cases h
        · rename_i dirDef hdef
          split at h
          · cases h
          · rename_i acc1 h1
            cases h
            exact Or.inr (Or.inr ⟨dirDef,
              List.mem_append_right _ (List.mem_singleton_self dirDef),
              hname _ dirDef hdef⟩)
      · rename_i hguard
        cases h
        exact resolved_of_guard hguard
    · intro acc dns acc' h dn hdn
      match dns with
      | [] => cases hdn
      | e :: rest =>
        rw [collectDirectiveList] at h
        split at h
        · cases h
        · rename_i acc1 h1
          rcases List.mem_cons.mp hdn with rfl | hdn
          · have hmono := (collect_mono fuel pool sm).2.2.2 acc1 rest acc' h
            exact resolvedIn_mono hmono (ihE acc dn acc1 h1)
          · exact ihL acc1 rest acc' h dn hdn

theorem collectFieldList_props (fuel : Nat) (pool : List Definition)
    (sm : String → Option Definition) (U : List Definition)
    (hsm : ∀ n m, sm n = some m → m ∈ U)
    (hname : ∀ n m, sm n = some m → getNodeName m = n) :
    ∀ (fs : List FieldV) (acc acc' : List Definition),
      collectFieldList fuel pool sm acc fs = .ok acc' →
      (∀ x ∈ acc, x ∈ acc') ∧ (∀ x ∈ acc', x ∈ acc ∨ x ∈ U) ∧
      ∀ f ∈ fs, resolvedIn pool acc' builtinTypes (namedTypeName f.type) ∧
        ∀ dn ∈ f.directives, resolvedIn pool acc' builtinDirectives dn := by
  intro fs
  induction fs with
  | nil =>
    intro acc acc' h
    cases h
    exact ⟨fun x hx => hx, fun x hx => Or.inl hx, fun f hf => absurd hf (List.not_mem_nil f)⟩
  | cons f rest ih =>
    intro acc acc' h
    rw [collectFieldList] at h
    split at h
    · cases h
    · rename_i acc1 h1
      obtain ⟨ihmono, ihmem, ihres⟩ := ih acc1 acc' h
      have hNmono := (collect_mono fuel pool sm).1 acc f.name f.type f.directives acc1 h1
      have hNmem := (collect_mem fuel pool sm U hsm).1 acc f.name f.type f.directives acc1 h1
      have hNres := (collect_resolved fuel pool sm hname).1 acc f.name f.type f.directives acc1 h1
      refine ⟨fun x hx => ihmono x (hNmono x hx), ?_, ?_⟩
      · intro x hx
        rcases ihmem x hx with hx1 | hx1
        · exact hNmem x hx1
        · exact Or.inr hx1
      · intro g hg
        rcases List.mem_cons.mp hg with rfl | hg
        · exact ⟨resolvedIn_mono ihmono hNres.1,
            fun dn hdn => resolvedIn_mono ihmono (hNres.2 dn hdn)⟩
        · exact ihres g hg

theorem collectObjFieldList_props (fuel : Nat) (pool : List Definition)
    (sm : String → Option Definition) (U : List Definition)
    (hsm : ∀ n m, sm n = some m → m ∈ U)
    (hname : ∀ n m, sm n = some m → getNodeName m = n) :
    ∀ (fs : List FieldV) (acc acc' : List Definition),
      collectObjFieldList fuel pool sm acc fs = .ok acc' →
      (∀ x ∈ acc, x ∈ acc') ∧ (∀ x ∈ acc', x ∈ acc ∨ x ∈ U) ∧
      ∀ f ∈ fs, resolvedIn pool acc' builtinTypes (namedTypeName f.type) ∧
        (∀ dn ∈ f.directives, resolvedIn pool acc' builtinDirectives dn) ∧
        ∀ a ∈ f.arguments, resolvedIn pool acc' builtinTypes (namedTypeName a.type) ∧
          ∀ dn ∈ a.directives, resolvedIn pool acc' builtinDirectives dn := by
  intro fs
  induction fs with
  | nil =>
    intro acc acc' h
    cases h
    exact ⟨fun x hx => hx, fun x hx => Or.inl hx, fun f hf => absurd hf (List.not_mem_nil f)⟩
  | cons f rest ih =>
    intro acc acc' h
    rw [collectObjFieldList] at h
    split at h
    · cases h
    · rename_i acc1 h1
      split at h
      · cases h
      · rename_i acc2 h2
        obtain ⟨ihmono, ihmem, ihres⟩ := ih acc2 acc' h
        have hNmono := (collect_mono fuel pool sm).1 acc f.name f.type f.directives acc1 h1
        have hNmem := (collect_mem fuel pool sm U hsm).1 acc f.name f.type f.directives acc1 h1
        have hNres := (collect_resolved fuel pool sm hname).1 acc f.name f.type f.directives acc1 h1
        have hAmono := (collect_mono fuel pool sm).2.1 acc1 f.arguments acc2 h2
        have hAmem := (collect_mem fuel pool sm U hsm).2.1 acc1 f.arguments acc2 h2
        have hAres := (collect_resolved fuel pool sm hname).2.1 acc1 f.arguments acc2 h2
        have hmono12 : ∀ x ∈ acc, x ∈ acc' := fun x hx =>
          ihmono x (hAmono x (hNmono x hx))
        refine ⟨hmono12, ?_, ?_⟩
        · intro x hx
          rcases ihmem x hx with hx1 | hx1
          · rcases hAmem x hx1 with hx2 | hx2
            · exact hNmem x hx2
            · exact Or.inr hx2
          · exact Or.inr hx1
        · intro g hg
          rcases List.mem_cons.mp hg with rfl | hg
          · have hm1 : ∀ x ∈ acc1, x ∈ acc' := fun x hx => ihmono x (hAmono x hx)
            refine ⟨resolvedIn_mono hm1 hNres.1,
              fun dn hdn => resolvedIn_mono hm1 (hNres.2 dn hdn), ?_⟩
            intro a ha
            exact ⟨resolvedIn_mono ihmono (hAres a ha).1,
              fun dn hdn => resolvedIn_mono ihmono ((hAres a ha).2 dn hdn)⟩
          · exact ihres g hg

theorem collectInterfaceList_props (pool : List Definition)
    (sm : String → Option Definition) (U : List Definition)
    (hsm : ∀ n m, sm n = some m → m ∈ U)
    (hname : ∀ n m, sm n = some m → getNodeName m = n) :
    ∀ (ints : List String) (acc acc' : List Definition),
      collectInterfaceList pool sm acc ints = .ok acc' →
      (∀ x ∈ acc, x ∈ acc') ∧ (∀ x ∈ acc', x ∈ acc ∨ x ∈ U) ∧
      ∀ i ∈ ints, resolvedIn pool acc' [] i := by
  intro ints
  induction ints with
  | nil =>
    intro acc acc' h
    cases h
    exact ⟨fun x hx => hx, fun x hx => Or.inl hx, fun i hi => absurd hi (List.not_mem_nil i)⟩
  | cons i rest ih =>
    intro acc acc' h
    rw [collectInterfaceList] at h
    split at h
    · rename_i hguard
      split at h
      · cases h
      · rename_i m hm
        obtain ⟨ihmono, ihmem, ihres⟩ := ih (acc ++ [m]) acc' h
        refine ⟨fun x hx => ihmono x (List.mem_append_left _ hx), ?_, ?_⟩
        · intro x hx
          rcases ihmem x hx with hx1 | hx1
          · rcases List.mem_append.mp hx1 with hx2 | hx2
            · exact Or.inl hx2
            · exact Or.inr (List.mem_singleton.mp hx2 ▸ hsm _ m hm)
          · exact Or.inr hx1
        · intro j hj
          rcases List.mem_cons.mp hj with rfl | hj
          · refine Or.inr (Or.inr ⟨m, ihmono m (List.mem_append_right _
              (List.mem_singleton_self m)), hname _ m hm⟩)
          · exact ihres j hj
    · rename_i hguard
      obtain ⟨ihmono, ihmem, ihres⟩ := ih acc acc' h
      refine ⟨ihmono, ihmem, ?_⟩
      intro j hj
      rcases List.mem_cons.mp hj with rfl | hj
      · rw [Bool.not_eq_true', Bool.not_eq_false] at hguard
        exact resolvedIn_mono ihmono (resolved_of_pool_any hguard)
      · exact ihres j hj

theorem collectTypeList_props (pool : List Definition)
    (sm : String → Option Definition) (U : List Definition)
    (hsm : ∀ n m, sm n = some m → m ∈ U)
    (hname : ∀ n m, sm n = some m → getNodeName m = n) :
    ∀ (ts : List String) (acc acc' : List Definition),
      collectTypeList pool sm acc ts = .ok acc' →
      (∀ x ∈ acc, x ∈ acc') ∧ (∀ x ∈ acc', x ∈ acc ∨ x ∈ U) ∧
      ∀ t ∈ ts, resolvedIn pool acc' [] t := by
  intro ts
  induction ts with
  | nil =>
    intro acc acc' h
    cases h
    exact ⟨fun x hx => hx, fun x hx => Or.inl hx, fun t ht => absurd ht (List.not_mem_nil t)⟩
  | cons t rest ih =>
    intro acc acc' h
    rw [collectTypeList] at h
    split at h
    · rename_i hguard
      split at h
      · cases h
      · rename_i m hm
        obtain ⟨ihmono, ihmem, ihres⟩ := ih (acc ++ [m]) acc' h
        refine ⟨fun x hx => ihmono x (List.mem_append_left _ hx), ?_, ?_⟩
        · intro x hx
          rcases ihmem x hx with hx1 | hx1
          · rcases List.mem_append.mp hx1 with hx2 | hx2
            · exact Or.inl hx2
            · exact Or.inr (List.mem_singleton.mp hx2 ▸ hsm _ m hm)
          · exact Or.inr hx1
        · intro j hj
          rcases List.mem_cons.mp hj with rfl | hj
          · refine Or.inr (Or.inr ⟨m, ihmono m (List.mem_append_right _
              (List.mem_singleton_self m)), hname _ m hm⟩)
          · exact ihres j hj
    · rename_i hguard
      obtain ⟨ihmono, ihmem, ihres⟩ := ih acc acc' h
      refine ⟨ihmono, ihmem, ?_⟩
      intro j hj
      rcases List.mem_cons.mp hj with rfl | hj
      · rw [Bool.not_eq_true', Bool.not_eq_false] at hguard
        exact resolvedIn_mono ihmono (resolved_of_pool_any hguard)
      · exact ihres j hj

theorem ite_ok_elim {cond : Bool} {F : Except String (List Definition)}
    {acc acc' : List Definition}
    (h : (if cond = true then F else Except.ok acc) = .ok acc') :
    (cond = true ∧ F = .ok acc') ∨ (cond = false ∧ acc = acc') := by
  by_cases hc : cond = true
  · rw [if_pos hc] at h; exact Or.inl ⟨hc, h⟩
  · rw [if_neg hc] at h
    cases h
    exact Or.inr ⟨Bool.not_eq_true _ ▸ Bool.of_not_eq_true hc, rfl⟩

theorem builtinTypes_sub_all : ∀ x ∈ builtinTypes, x ∈ builtinAll :=
  fun x hx => List.mem_append_left _ hx

theorem builtinDirectives_sub_all : ∀ x ∈ builtinDirectives, x ∈ builtinAll :=
  fun x hx => List.mem_append_right _ hx

theorem nil_sub_all : ∀ x ∈ ([] : List String), x ∈ builtinAll :=
  fun x hx => absurd hx (List.not_mem_nil x)

theorem collectNew_props (fuel : Nat) (U pool : List Definition) (d : Definition)
    (sm : String → Option Definition)
    (hsm : ∀ n m, sm n = some m → m ∈ U)
    (hname : ∀ n m, sm n = some m → getNodeName m = n)
    (collected : List Definition)
    (h : collectNewTypeDefinitions fuel U pool d sm = .ok collected) :
    (∀ x ∈ collected, x ∈ U) ∧
    ∀ r ∈ checkedRefs d, resolvedIn pool collected builtinAll r := by
  rw [collectNewTypeDefinitions] at h
  split at h
  · cases h
  rename_i acc0 hstep0
  split at h
  · cases h
  rename_i acc1 hstep1
  split at h
  · cases h
  rename_i acc2 hstep2
  split at h
  · cases h
  rename_i acc3 hstep3
  split at h
  · cases h
  rename_i acc4 hstep4
  -- stage facts
  have s0 : (∀ x ∈ acc0, x ∈ U) ∧
      ((d.kind != "DirectiveDefinition") = true →
        ∀ dn ∈ d.directives, resolvedIn pool acc0 builtinDirectives dn) := by
    rcases ite_ok_elim hstep0 with ⟨hc, hF⟩ | ⟨hc, hacc⟩
    · refine ⟨?_, fun _ => (collect_resolved fuel pool sm hname).2.2.2 [] d.directives acc0 hF⟩
      intro x hx
      rcases (collect_mem fuel pool sm U hsm).2.2.2 [] d.directives acc0 hF x hx with h1 | h1
      · cases h1
      · exact h1
    · refine ⟨?_, fun hcc => absurd hcc (by rw [hc]; exact Bool.false_ne_true)⟩
      intro x hx
      rw [← hacc] at hx
      cases hx
  have s1 : (∀ x ∈ acc0, x ∈ acc1) ∧ (∀ x ∈ acc1, x ∈ acc0 ∨ x ∈ U) ∧
      ((d.kind == "InputObjectTypeDefinition") = true →
        ∀ f ∈ d.fields, resolvedIn pool acc1 builtinTypes (namedTypeName f.type) ∧
          ∀ dn ∈ f.directives, resolvedIn pool acc1 builtinDirectives dn) := by
    rcases ite_ok_elim hstep1 with ⟨hc, hF⟩ | ⟨hc, hacc⟩
    · obtain ⟨hmono, hmem, hres⟩ := collectFieldList_props fuel pool sm U hsm hname
        d.fields acc0 acc1 hF
      exact ⟨hmono, hmem, fun _ => hres⟩
    · rw [← hacc]
      exact ⟨fun x hx => hx, fun x hx => Or.inl hx,
        fun hcc => absurd hcc (by rw [hc]; exact Bool.false_ne_true)⟩
  have s2 : (∀ x ∈ acc1, x ∈ acc2) ∧ (∀ x ∈ acc2, x ∈ acc1 ∨ x ∈ U) ∧
      ((d.kind == "InterfaceTypeDefinition") = true →
        ∀ f ∈ d.fields, resolvedIn pool acc2 builtinTypes (namedTypeName f.type) ∧
          ∀ dn ∈ f.directives, resolvedIn pool acc2 builtinDirectives dn) := by
    rcases ite_ok_elim hstep2 with ⟨hc, hF⟩ | ⟨hc, hacc⟩
    · split at hF
      · cases hF
      · rename_i a ha
        cases hF
        obtain ⟨hmono, hmem, hres⟩ := collectFieldList_props fuel pool sm U hsm hname
          d.fields acc1 a ha
        refine ⟨fun x hx => List.mem_append_left _ (hmono x hx), ?_, ?_⟩
        · intro x hx
          rcases List.mem_append.mp hx with hx1 | hx1
          · exact hmem x hx1
          · exact Or.inr (List.mem_filter.mp hx1).1
        · intro _ f hf
          exact ⟨resolvedIn_mono (fun x hx => List.mem_append_left _ hx) (hres f hf).1,
            fun dn hdn => resolvedIn_mono (fun x hx => List.mem_append_left _ hx)
              ((hres f hf).2 dn hdn)⟩
    · rw [← hacc]
      exact ⟨fun x hx => hx, fun x hx => Or.inl hx,
        fun hcc => absurd hcc (by rw [hc]; exact Bool.false_ne_true)⟩
  have s3 : (∀ x ∈ acc2, x ∈ acc3) ∧ (∀ x ∈ acc3, x ∈ acc2 ∨ x ∈ U) ∧
      ((d.kind == "UnionTypeDefinition") = true →
        ∀ t ∈ d.types, resolvedIn pool acc3 [] t) := by
    rcases ite_ok_elim hstep3 with ⟨hc, hF⟩ | ⟨hc, hacc⟩
    · obtain ⟨hmono, hmem, hres⟩ := collectTypeList_props pool sm U hsm hname
        d.types acc2 acc3 hF
      exact ⟨hmono, hmem, fun _ => hres⟩
    · rw [← hacc]
      exact ⟨fun x hx => hx, fun x hx => Or.inl hx,
        fun hcc => absurd hcc (by rw [hc]; exact Bool.false_ne_true)⟩
  have s4 : (∀ x ∈ acc3, x ∈ acc4) ∧ (∀ x ∈ acc4, x ∈ acc3 ∨ x ∈ U) ∧
      ((d.kind == "ObjectTypeDefinition") = true →
        (∀ i ∈ d.interfaces, resolvedIn pool acc4 [] i) ∧
        ∀ f ∈ d.fields, resolvedIn pool acc4 builtinTypes (namedTypeName f.type) ∧
          (∀ dn ∈ f.directives, resolvedIn pool acc4 builtinDirectives dn) ∧
          ∀ a ∈ f.arguments, resolvedIn pool acc4 builtinTypes (namedTypeName a.type) ∧
            ∀ dn ∈ a.directives, resolvedIn pool acc4 builtinDirectives dn) := by
    rcases ite_ok_elim hstep4 with ⟨hc, hF⟩ | ⟨hc, hacc⟩
    · split at hF
      · cases hF
      · rename_i a ha
        obtain ⟨hImono, hImem, hIres⟩ := collectInterfaceList_props pool sm U hsm hname
          d.interfaces acc3 a ha
        obtain ⟨hOmono, hOmem, hOres⟩ := collectObjFieldList_props fuel pool sm U hsm hname
          d.fields a acc4 hF
        refine ⟨fun x hx => hOmono x (hImono x hx), ?_, ?_⟩
        · intro x hx
          rcases hOmem x hx with hx1 | hx1
          · exact hImem x hx1
          · exact Or.inr hx1
        · intro _
          exact ⟨fun i hi => resolvedIn_mono hOmono (hIres i hi), hOres⟩
    · rw [← hacc]
      exact ⟨fun x hx => hx, fun x hx => Or.inl hx,
        fun hcc => absurd hcc (by rw [hc]; exact Bool.false_ne_true)⟩
  have s5 : (∀ x ∈ acc4, x ∈ collected) ∧ (∀ x ∈ collected, x ∈ acc4 ∨ x ∈ U) ∧
      ((d.kind == "SchemaDefinition") = true →
        ∀ t ∈ d.operationTypes.map (fun o => o.tname),
          resolvedIn pool collected [] t) := by
    rcases ite_ok_elim h with ⟨hc, hF⟩ | ⟨hc, hacc⟩
    · obtain ⟨hmono, hmem, hres⟩ := collectTypeList_props pool sm U hsm hname
        (d.operationTypes.map (fun o => o.tname)) acc4 collected hF
      exact ⟨hmono, hmem, fun _ => hres⟩
    · rw [← hacc]
      exact ⟨fun x hx => hx, fun x hx => Or.inl hx,
        fun hcc => absurd hcc (by rw [hc]; exact Bool.false_ne_true)⟩
  -- compose monotone maps into `collected`
  have m1c : ∀ x ∈ acc1, x ∈ collected := fun x hx =>
    s5.1 x (s4.1 x (s3.1 x (s2.1 x hx)))
  have m0c : ∀ x ∈ acc0, x ∈ collected := fun x hx => m1c x (s1.1 x hx)
  have m2c : ∀ x ∈ acc2, x ∈ collected := fun x hx => s5.1 x (s4.1 x (s3.1 x hx))
  have m3c : ∀ x ∈ acc3, x ∈ collected := fun x hx => s5.1 x (s4.1 x hx)
  have m4c : ∀ x ∈ acc4, x ∈ collected := s5.1
  constructor
  · intro x hx
    rcases s5.2.1 x hx with hx | hx
    · rcases s4.2.1 x hx with hx | hx
      · rcases s3.2.1 x hx with hx | hx
        · rcases s2.2.1 x hx with hx | hx
          · rcases s1.2.1 x hx with hx | hx
            · exact s0.1 x hx
            · exact hx
          · exact hx
        · exact hx
      · exact hx
    · exact hx
  · intro r hr
    rw [checkedRefs] at hr
    rcases List.mem_append.mp hr with h5 | hF
    · rcases List.mem_append.mp h5 with h4 | hE
      · rcases List.mem_append.mp h4 with h3 | hD
        · rcases List.mem_append.mp h3 with h2 | hC
          · rcases List.mem_append.mp h2 with hA | hB
            · by_cases hc : (d.kind != "DirectiveDefinition") = true
              · rw [if_pos hc] at hA
                exact resolvedIn_weaken builtinDirectives_sub_all
                  (resolvedIn_mono m0c (s0.2 hc r hA))
              · rw [if_neg hc] at hA
                cases hA
            · by_cases hc : (d.kind == "InputObjectTypeDefinition") = true
              · rw [if_pos hc] at hB
                obtain ⟨f, hf, hrf⟩ := List.mem_flatMap.mp hB
                obtain ⟨hft, hfd⟩ := s1.2.2 hc f hf
                rcases List.mem_cons.mp hrf with rfl | hrf
                · exact resolvedIn_weaken builtinTypes_sub_all (resolvedIn_mono m1c hft)
                · exact resolvedIn_weaken builtinDirectives_sub_all
                    (resolvedIn_mono m1c (hfd r hrf))
              · rw [if_neg hc] at hB
                cases hB
          · by_cases hc : (d.kind == "InterfaceTypeDefinition") = true
            · rw [if_pos hc] at hC
              obtain ⟨f, hf, hrf⟩ := List.mem_flatMap.mp hC
              obtain ⟨hft, hfd⟩ := s2.2.2 hc f hf
              rcases List.mem_cons.mp hrf with rfl | hrf
              · exact resolvedIn_weaken builtinTypes_sub_all (resolvedIn_mono m2c hft)
              · exact resolvedIn_weaken builtinDirectives_sub_all
                  (resolvedIn_mono m2c (hfd r hrf))
            · rw [if_neg hc] at hC
              cases hC
        · by_cases hc : (d.kind == "UnionTypeDefinition") = true
          · rw [if_pos hc] at hD
            exact resolvedIn_weaken nil_sub_all (resolvedIn_mono m3c (s3.2.2 hc r hD))
          · rw [if_neg hc] at hD
            cases hD
      · by_cases hc : (d.kind == "ObjectTypeDefinition") = true
        · rw [if_pos hc] at hE
          obtain ⟨hints, hfields⟩ := s4.2.2 hc
          rcases List.mem_append.mp hE with hE | hE
          · exact resolvedIn_weaken nil_sub_all
              (resolvedIn_mono m4c (hints r hE))
          · obtain ⟨f, hf, hrf⟩ := List.mem_flatMap.mp hE
            obtain ⟨hft, hfd, hfa⟩ := hfields f hf
            rcases List.mem_append.mp hrf with hrf | hrf
            · rcases List.mem_cons.mp hrf with rfl | hrf
              · exact resolvedIn_weaken builtinTypes_sub_all (resolvedIn_mono m4c hft)
              · exact resolvedIn_weaken builtinDirectives_sub_all
                  (resolvedIn_mono m4c (hfd r hrf))
            · obtain ⟨a, ha, hra⟩ := List.mem_flatMap.mp hrf
              obtain ⟨hat, had⟩ := hfa a ha
              rcases List.mem_cons.mp hra with rfl | hra
              · exact resolvedIn_weaken builtinTypes_sub_all (resolvedIn_mono m4c hat)
              · exact resolvedIn_weaken builtinDirectives_sub_all
                  (resolvedIn_mono m4c (had r hra))
        · rw [if_neg hc] at hE
          cases hE
    · by_cases hc : (d.kind == "SchemaDefinition") = true
      · rw [if_pos hc] at hF
        exact resolvedIn_weaken nil_sub_all (s5.2.2 hc r hF)
      · rw [if_neg hc] at hF
        cases hF

theorem schemaMapOf_mem {U : List Definition} {n : String} {m : Definition}
    (h : schemaMapOf U n = some m) : m ∈ U := by
  rw [schemaMapOf_eq_find] at h
  exact List.mem_of_find?_eq_some h

theorem schemaMapOf_name {U : List Definition} {n : String} {m : Definition}
    (h : schemaMapOf U n = some m) : getNodeName m = n := by
  rw [schemaMapOf_eq_find] at h
  have := List.find?_some h
  simpa using this

theorem completePool_ok_structure :
    ∀ (fuel : Nat) (U pool queue : List Definition) (visited : List String)
      (out : List Definition),
      completeDefinitionPool fuel U pool queue visited = .ok out →
      ∃ rest : List Definition,
        out = uniqByName (pool ++ rest) ∧ ∀ x ∈ rest, x ∈ U := by
  intro fuel
  induction fuel with
  | zero => intro U pool queue visited out h; cases h
  | succ fuel ih =>
    intro U pool queue visited out h
    match queue with
    | [] =>
      cases h
      exact ⟨[], by rw [List.append_nil], fun x hx => absurd hx (List.not_mem_nil x)⟩
    | d :: rest' =>
      rw [completeDefinitionPool] at h
      split at h
      · exact ih U pool rest' visited out h
      · split at h
        · cases h
        · rename_i collected hcol
          obtain ⟨r, hout, hrU⟩ := ih U (pool ++ collected) (rest' ++ collected) _ out h
          refine ⟨collected ++ r, by rw [← List.append_assoc]; exact hout, ?_⟩
          intro x hx
          rcases List.mem_append.mp hx with hx | hx
          · exact (collectNew_props fuel U pool d (schemaMapOf U)
              (fun n m hm => schemaMapOf_mem hm)
              (fun n m hm => schemaMapOf_name hm) collected hcol).1 x hx
          · exact hrU x hx

theorem contains_iff_mem {α : Type} [BEq α] [LawfulBEq α] (l : List α) (a : α) :
    l.contains a = true ↔ a ∈ l := by
  induction l with
  | nil => simp
  | cons x xs ih =>
    simp only [List.contains_cons, Bool.or_eq_true, beq_iff_eq, List.mem_cons, ih]

theorem uniqByName_go_nodup : ∀ (l : List Definition) (seen : List (Option String)),
    ((uniqByName.go seen l).map nameKey).Nodup ∧
    ∀ x ∈ uniqByName.go seen l, nameKey x ∉ seen := by
  intro l
  induction l with
  | nil =>
    intro seen
    exact ⟨List.nodup_nil, fun x hx => absurd hx (List.not_mem_nil x)⟩
  | cons d rest ih =>
    intro seen
    rw [uniqByName.go]
    split
    · exact ih seen
    · rename_i hseen
      rw [Bool.not_eq_true] at hseen
      have hdns : nameKey d ∉ seen := fun hmem => by
        rw [(contains_iff_mem _ _).mpr hmem] at hseen
        cases hseen
      obtain ⟨ihnd, ihns⟩ := ih (nameKey d :: seen)
      constructor
      · rw [List.map_cons, List.nodup_cons]
        refine ⟨?_, ihnd⟩
        intro hmem
        obtain ⟨x, hx, hkey⟩ := List.mem_map.mp hmem
        exact ihns x hx (hkey ▸ List.mem_cons_self _ _)
      · intro x hx hxs
        rcases List.mem_cons.mp hx with rfl | hx
        · exact hdns hxs
        · exact ihns x hx (List.mem_cons_of_mem _ hxs)

theorem uniqByName_nodup (l : List Definition) :
    ((uniqByName l).map nameKey).Nodup :=
  (uniqByName_go_nodup l []).1

theorem uniqByName_go_find? (k : Option String) :
    ∀ (l : List Definition) (seen : List (Option String)),
      k ∉ seen →
      (uniqByName.go seen l).find? (fun x => nameKey x == k) =
        l.find? fun x => nameKey x == k := by
  intro l
  induction l with
  | nil => intro seen _; rfl
  | cons d rest ih =>
    intro seen hk
    rw [uniqByName.go]
    split
    · rename_i hseen
      have hdk : (nameKey d == k) = false := by
        rw [beq_eq_false_iff_ne]
        intro he
        exact hk (he ▸ (contains_iff_mem _ _).mp hseen)
      rw [List.find?_cons, hdk, ih seen hk]
    · rw [List.find?_cons, List.find?_cons]
      by_cases hdk : (nameKey d == k) = true
      · rw [hdk]
      · rw [Bool.not_eq_true] at hdk
        rw [hdk]
        refine ih (nameKey d :: seen) ?_
        intro hmem
        rcases List.mem_cons.mp hmem with he | he
        · rw [beq_eq_false_iff_ne] at hdk
          exact hdk he.symm
        · exact hk he

theorem uniqByName_find? (l : List Definition) (k : Option String) :
    (uniqByName l).find? (fun x => nameKey x == k) =
      l.find? fun x => nameKey x == k :=
  uniqByName_go_find? k l [] (List.not_mem_nil k)

/-- C3: on success the closure engine returns its pool deduplicated by
definition name with the first occurrence kept (the final pool is the
initial pool plus appended discoveries, `uniqBy` keeps the first occurrence
of each name, and output names are pairwise distinct); in particular a
definition that is the first of its name in the initial pool — e.g. a root
fragment definition colliding with a transitively discovered same-named
definition, which is only ever appended later — is the one kept. -/
theorem c3_dedup_first_occurrence_kept (fuel : Nat)
    (U pool queue : List Definition) (visited : List String)
    (out : List Definition)
    (h : completeDefinitionPool fuel U pool queue visited = .ok out) :
    ((out.map nameKey).Nodup) ∧
    (∃ rest, out = uniqByName (pool ++ rest) ∧ ∀ x ∈ rest, x ∈ U) ∧
    ∀ d ∈ pool, pool.find? (fun x => nameKey x == nameKey d) = some d →
      out.find? (fun x => nameKey x == nameKey d) = some d := by
  obtain ⟨rest, hout, hrU⟩ := completePool_ok_structure fuel U pool queue visited out h
  refine ⟨hout ▸ uniqByName_nodup _, ⟨rest, hout, hrU⟩, ?_⟩
  intro d _ hfind
  rw [hout, uniqByName_find?, List.find?_append, hfind]
  rfl

/-- C3 witness: the root fragment's `type A` is in the initial pool; the
closure discovers the same-named implementation `w3A2` of interface `I` from
another fragment and appends it; the output keeps the root fragment's `A`. -/
theorem c3_first_occurrence_witness :
    ([w3A, w3I] : List Definition).find? (fun x => nameKey x == nameKey w3A) =
      some w3A :=
  (c3_dedup_first_occurrence_kept 10 [w3A, w3I, w3A2] [w3A, w3I] [w3A, w3I] []
    [w3A, w3I] (by decide)).2.2 w3A (List.mem_cons_self _ _) (by decide)

theorem mergeLoop_eq_append :
    ∀ (rest : List Definition) (processed : List String) (merged : List Definition),
      (rest.map getNodeName).Nodup →
      (∀ n ∈ rest.map getNodeName, processed.contains n = false) →
      mergeLoop rest processed merged = merged ++ rest := by
  intro rest
  induction rest with
  | nil => intro processed merged _ _; rw [mergeLoop, List.append_nil]
  | cons t ts ih =>
    intro processed merged hnd hns
    rw [mergeLoop]
    rw [if_neg (by
      rw [hns (getNodeName t) (List.mem_map_of_mem _ (List.mem_cons_self _ _))]
      exact Bool.false_ne_true)]
    rw [ih (processed ++ [getNodeName t]) (merged ++ [t])
      (by rw [List.map_cons, List.nodup_cons] at hnd; exact hnd.2) ?_]
    · rw [List.append_assoc]
      rfl
    · intro n hn
      rw [Bool.eq_false_iff]
      intro hc
      rcases List.mem_append.mp ((contains_iff_mem _ _).mp hc) with hc1 | hc1
      · have h2 := hns n (List.mem_map.mpr (by
          obtain ⟨x, hx, rfl⟩ := List.mem_map.mp hn
          exact ⟨x, List.mem_cons_of_mem _ hx, rfl⟩))
        have h3 : processed.contains n = true := (contains_iff_mem _ _).mpr hc1
        rw [h2] at h3
        cases h3
      · rw [List.map_cons, List.nodup_cons] at hnd
        exact hnd.1 ((List.mem_singleton.mp hc1) ▸ hn)

theorem applyMerge_eq_self {merged defs : List Definition} {d : Definition}
    (hsub : ∀ m ∈ merged, m ∈ defs)
    (hids : (defs.map Definition.id).Nodup) (hd : d ∈ defs) :
    applyMerge merged d = d := by
  rw [applyMerge]
  cases hfind : merged.find? (fun m => m.id == d.id) with
  | none => rfl
  | some m =>
    have hm : m ∈ merged := List.mem_of_find?_eq_some hfind
    have hmid : m.id = d.id := by
      have := List.find?_some hfind
      simpa using this
    exact List.inj_on_of_nodup_map hids (hsub m hm) hd hmid

theorem uniqByName_go_all_seen :
    ∀ (l : List Definition) (seen : List (Option String)),
      (∀ x ∈ l, nameKey x ∈ seen) → uniqByName.go seen l = [] := by
  intro l
  induction l with
  | nil => intro seen _; rfl
  | cons d rest ih =>
    intro seen h
    rw [uniqByName.go,
      if_pos ((contains_iff_mem _ _).mpr (h d (List.mem_cons_self _ _)))]
    exact ih seen fun x hx => h x (List.mem_cons_of_mem _ hx)

theorem uniqByName_go_append_absorb :
    ∀ (l extra : List Definition) (seen : List (Option String)),
      (∀ x ∈ extra, nameKey x ∈ seen ∨ nameKey x ∈ l.map nameKey) →
      uniqByName.go seen (l ++ extra) = uniqByName.go seen l := by
  intro l
  induction l with
  | nil =>
    intro extra seen h
    rw [List.nil_append]
    have hall : ∀ x ∈ extra, nameKey x ∈ seen := by
      intro x hx
      rcases h x hx with h1 | h1
      · exact h1
      · simp at h1
    rw [uniqByName_go_all_seen extra seen hall]
    rfl
  | cons d rest ih =>
    intro extra seen h
    rw [List.cons_append, uniqByName.go, uniqByName.go]
    split
    · refine ih extra seen ?_
      intro x hx
      rcases h x hx with h1 | h1
      · exact Or.inl h1
      · rcases List.mem_map.mp h1 with ⟨y, hy, hk⟩
        rcases List.mem_cons.mp hy with rfl | hy
        · rename_i hseen
          exact Or.inl (hk ▸ (contains_iff_mem _ _).mp hseen)
        · exact Or.inr (List.mem_map.mpr ⟨y, hy, hk⟩)
    · rw [ih extra (nameKey d :: seen) ?_]
      intro x hx
      rcases h x hx with h1 | h1
      · exact Or.inl (List.mem_cons_of_mem _ h1)
      · rcases List.mem_map.mp h1 with ⟨y, hy, hk⟩
        rcases List.mem_cons.mp hy with rfl | hy
        · exact Or.inl (hk ▸ List.mem_cons_self _ _)
        · exact Or.inr (List.mem_map.mpr ⟨y, hy, hk⟩)

theorem uniqByName_go_eq_self :
    ∀ (l : List Definition) (seen : List (Option String)),
      ((l.map nameKey).Nodup) → (∀ x ∈ l, nameKey x ∉ seen) →
      uniqByName.go seen l = l := by
  intro l
  induction l with
  | nil => intro seen _ _; rfl
  | cons d rest ih =>
    intro seen hnd hns
    rw [List.map_cons, List.nodup_cons] at hnd
    rw [uniqByName.go, if_neg (by
      rw [Bool.not_eq_true, Bool.eq_false_iff]
      intro hc
      exact hns d (List.mem_cons_self _ _) ((contains_iff_mem _ _).mp hc))]
    rw [ih (nameKey d :: seen) hnd.2 ?_]
    intro x hx hmem
    rcases List.mem_cons.mp hmem with he | he
    · exact hnd.1 (he ▸ List.mem_map_of_mem _ hx)
    · exact hns x (List.mem_cons_of_mem _ hx) he

theorem getNodeName_eq_elim (d : Definition) :
    getNodeName d = (nameKey d).elim "schema" id := by
  rw [getNodeName, nameKey]
  by_cases h : d.kind == "SchemaDefinition" <;> simp [h]

theorem nodup_nameKey_of_nodup_names {l : List Definition}
    (h : (l.map getNodeName).Nodup) : (l.map nameKey).Nodup := by
  have he : l.map getNodeName = (l.map nameKey).map fun k => k.elim "schema" id := by
    rw [List.map_map]
    exact List.map_congr_left fun d _ => getNodeName_eq_elim d
  rw [he] at h
  exact h.of_map

/-- C10 (amended): on a definition list in which every mergeable-named
definition precedes all others (as expressed by the filter partition being
the list itself) and names and node identities are pairwise distinct — the
actual output shape, except for the ordering proviso the counterexample
exhibits — re-running the resolver on the list as a single import-free root
fragment returns it unchanged whenever the rerun succeeds. -/
theorem c10_rerun_identity (fuel : Nat) (mergeableTypes : List String)
    (defs out : List Definition)
    (hnames : (defs.map getNodeName).Nodup)
    (hids : (defs.map Definition.id).Nodup)
    (hsplit :
      (defs.filter fun d => (mergeableTypes ++ rootFields).contains (getNodeName d)) ++
        (defs.filter fun d => !((mergeableTypes ++ rootFields).contains (getNodeName d))) =
        defs)
    (h : importSchemaCore fuel mergeableTypes [defs] [defs] = .ok out) :
    out = defs := by
  have hflat : ([defs] : List (List Definition)).flatten = defs := by
    simp
  have hfs : firstSetOf mergeableTypes [defs] = defs := by
    rw [firstSetOf]
    simp only [hflat, List.headD_cons]
    exact hsplit
  have hmerged : mergedOf mergeableTypes [defs] = defs := by
    rw [mergedOf, hfs]
    have := mergeLoop_eq_append defs [] [] hnames (fun n _ => rfl)
    rw [this, List.nil_append]
  have hupd : ∀ d ∈ defs, applyMerge (mergedOf mergeableTypes [defs]) d = d := by
    intro d hd
    rw [hmerged]
    exact applyMerge_eq_self (fun m hm => hm) hids hd
  have hmapid : defs.map (applyMerge (mergedOf mergeableTypes [defs])) = defs := by
    rw [List.map_congr_left (fun d hd => hupd d hd)]
    exact List.map_id defs
  have hpool : initialPool mergeableTypes [defs] = defs := by
    rw [initialPool, hfs, hmapid]
  have hqueue : initialQueue mergeableTypes [defs] = defs := by
    rw [initialQueue, hflat, hmapid]
  rw [importSchemaCore] at h
  rw [hpool, hqueue, hflat, hmapid] at h
  obtain ⟨rest, hout, hrU⟩ := completePool_ok_structure fuel defs defs defs [] out h
  rw [hout]
  have habs : uniqByName.go [] (defs ++ rest) = uniqByName.go [] defs := by
    refine uniqByName_go_append_absorb defs rest [] ?_
    intro x hx
    exact Or.inr (List.mem_map_of_mem _ (hrU x hx))
  have hself : uniqByName.go [] defs = defs :=
    uniqByName_go_eq_self defs [] (nodup_nameKey_of_nodup_names hnames)
      (fun x _ hmem => absurd hmem (List.not_mem_nil _))
  rw [uniqByName, habs, hself]

/-- C10 witness: on the two-type schema `Query { posts: Post }`,
`Post { id: ID }` — mergeable-named definitions first, distinct names and
ids — the rerun returns the same definition list. -/
theorem c10_rerun_identity_witness :
    ((([w1Query, w1Post] : List Definition).map getNodeName).Nodup) ∧
    ([w1Query, w1Post] : List Definition) = [w1Query, w1Post] :=
  ⟨by decide, c10_rerun_identity 20 [] [w1Query, w1Post] [w1Query, w1Post]
    (by decide) (by decide) (by decide) (by decide)⟩

/-- C10 counterexample: a successful first run yields `[A, B, Query]` (the
`Query` is transitively discovered, hence last); re-running `importSchema`
on that output moves the mergeable-named `Query` to the front, producing
`[Query, A, B]` — a different text, refuting idempotence on the code's own
output. -/
theorem c10_cex_rerun_differs :
    importSchemaCore 50 [] [[tenA], [tenB]] [[tenA], [tenB, tenQ]] =
      .ok [tenA, tenB, tenQ] ∧
    importSchemaCore 50 [] [[tenA, tenB, tenQ]] [[tenA, tenB, tenQ]] =
      .ok [tenQ, tenA, tenB] ∧
    ([tenQ, tenA, tenB] : List Definition) ≠ [tenA, tenB, tenQ] :=
  ⟨by decide, by decide, by decide⟩

theorem resolvedIn_pool_mono {pool pool' : List Definition} {b : List String}
    {r : String} (hsub : ∀ x ∈ pool, x ∈ pool')
    (h : resolvedIn pool [] b r) : resolvedIn pool' [] b r := by
  rcases h with h | ⟨d, hd, hn⟩ | ⟨m, hm, _⟩
  · exact Or.inl h
  · exact Or.inr (Or.inl ⟨d, hsub d hd, hn⟩)
  · cases hm

theorem resolvedIn_flatten {pool acc : List Definition} {b : List String}
    {r : String} (h : resolvedIn pool acc b r) :
    resolvedIn (pool ++ acc) [] b r := by
  rcases h with h | ⟨d, hd, hn⟩ | ⟨m, hm, hn⟩
  · exact Or.inl h
  · exact Or.inr (Or.inl ⟨d, List.mem_append_left _ hd, hn⟩)
  · exact Or.inr (Or.inl ⟨m, List.mem_append_right _ hm, hn⟩)

theorem uniqByName_go_subset :
    ∀ (l : List Definition) (seen : List (Option String)) (x : Definition),
      x ∈ uniqByName.go seen l → x ∈ l := by
  intro l
  induction l with
  | nil => intro seen x hx; cases hx
  | cons d rest ih =>
    intro seen x hx
    rw [uniqByName.go] at hx
    split at hx
    · exact List.mem_cons_of_mem _ (ih seen x hx)
    · rcases List.mem_cons.mp hx with rfl | hx
      · exact List.mem_cons_self _ _
      · exact List.mem_cons_of_mem _ (ih _ x hx)

theorem uniqByName_go_cover :
    ∀ (l : List Definition) (seen : List (Option String)) (p : Definition),
      p ∈ l → nameKey p ∉ seen →
      ∃ q ∈ uniqByName.go seen l, nameKey q = nameKey p := by
  intro l
  induction l with
  | nil => intro seen p hp _; cases hp
  | cons d rest ih =>
    intro seen p hp hps
    rw [uniqByName.go]
    split
    · rename_i hseen
      rcases List.mem_cons.mp hp with rfl | hp
      · exact absurd ((contains_iff_mem _ _).mp hseen) hps
      · exact ih seen p hp hps
    · rcases List.mem_cons.mp hp with rfl | hp
      · exact ⟨p, List.mem_cons_self _ _, rfl⟩
      · by_cases hk : nameKey p = nameKey d
        · exact ⟨d, List.mem_cons_self _ _, hk.symm⟩
        · obtain ⟨q, hq, hqk⟩ := ih (nameKey d :: seen) p hp (by
            intro hmem
            rcases List.mem_cons.mp hmem with he | he
            · exact hk he
            · exact hps he)
          exact ⟨q, List.mem_cons_of_mem _ hq, hqk⟩

theorem getNodeName_eq_of_nameKey_eq {p q : Definition}
    (h : nameKey p = nameKey q) : getNodeName p = getNodeName q := by
  rw [getNodeName_eq_elim, getNodeName_eq_elim, h]

theorem mergeContent_id (x t : Definition) : (mergeContent x t).id = x.id := by
  rw [mergeContent]
  by_cases h : t.kind == "SchemaDefinition" <;> simp [h]

theorem mergeInto_entries (t : Definition) :
    ∀ (merged : List Definition) (m : Definition), m ∈ mergeInto t merged →
      m ∈ merged ∨ ∃ y ∈ merged, m = mergeContent y t := by
  intro merged
  induction merged with
  | nil => intro m hm; cases hm
  | cons x rest ih =>
    intro m hm
    rw [mergeInto] at hm
    split at hm
    · rcases List.mem_cons.mp hm with rfl | hm
      · exact Or.inr ⟨x, List.mem_cons_self _ _, rfl⟩
      · exact Or.inl (List.mem_cons_of_mem _ hm)
    · rcases List.mem_cons.mp hm with rfl | hm
      · exact Or.inl (List.mem_cons_self _ _)
      · rcases ih m hm with hm1 | ⟨y, hy, he⟩
        · exact Or.inl (List.mem_cons_of_mem _ hm1)
        · exact Or.inr ⟨y, List.mem_cons_of_mem _ hy, he⟩

theorem mergeLoop_entries (S : List Definition) :
    ∀ (rest : List Definition) (processed : List String)
      (merged : List Definition),
      (∀ x ∈ rest, x ∈ S) →
      (∀ m ∈ merged, ∃ x ∈ S, m.id = x.id ∧ getNodeName m = getNodeName x) →
      ∀ m ∈ mergeLoop rest processed merged,
        ∃ x ∈ S, m.id = x.id ∧ getNodeName m = getNodeName x := by
  intro rest
  induction rest with
  | nil =>
    intro processed merged _ hm m hmem
    rw [mergeLoop] at hmem
    exact hm m hmem
  | cons t ts ih =>
    intro processed merged hrest hm m hmem
    rw [mergeLoop] at hmem
    split at hmem
    · refine ih processed (mergeInto t merged)
        (fun x hx => hrest x (List.mem_cons_of_mem _ hx)) ?_ m hmem
      intro m' hm'
      rcases mergeInto_entries t merged m' hm' with hm1 | ⟨y, hy, rfl⟩
      · exact hm m' hm1
      · obtain ⟨x, hx, hid, hn⟩ := hm y hy
        exact ⟨x, hx, by rw [mergeContent_id, hid],
          by rw [getNodeName_mergeContent, hn]⟩
    · refine ih (processed ++ [getNodeName t]) (merged ++ [t])
        (fun x hx => hrest x (List.mem_cons_of_mem _ hx)) ?_ m hmem
      intro m' hm'
      rcases List.mem_append.mp hm' with hm1 | hm1
      · exact hm m' hm1
      · rw [List.mem_singleton.mp hm1]
        exact ⟨t, hrest t (List.mem_cons_self _ _), rfl, rfl⟩

theorem completePool_closed :
    ∀ (fuel : Nat) (U pool queue : List Definition) (visited : List String)
      (out : List Definition),
      ((U.map getNodeName).Nodup) →
      (∀ d ∈ pool, d ∈ U) → (∀ d ∈ queue, d ∈ U) →
      (∀ n ∈ visited, ∀ d ∈ U, getNodeName d = n →
        ∀ r ∈ checkedRefs d, resolvedIn pool [] builtinAll r) →
      (∀ d ∈ pool, getNodeName d ∈ visited ∨
        getNodeName d ∈ queue.map getNodeName) →
      completeDefinitionPool fuel U pool queue visited = .ok out →
      ∀ d ∈ out, ∀ r ∈ checkedRefs d,
        r ∈ builtinAll ∨ ∃ q ∈ out, getNodeName q = r := by
  intro fuel
  induction fuel with
  | zero => intro U pool queue visited out _ _ _ _ _ h; cases h
  | succ fuel ih =>
    intro U pool queue visited out hU hpoolU hqueueU hvis hpoolq h
    match queue with
    | [] =>
      cases h
      intro d hd r hr
      have hdp : d ∈ pool := uniqByName_go_subset pool [] d hd
      have hdv : getNodeName d ∈ visited := by
        rcases hpoolq d hdp with hv | hv
        · exact hv
        · cases hv
      have hres := hvis (getNodeName d) hdv d (hpoolU d hdp) rfl r hr
      rcases hres with hres | ⟨p, hp, hpn⟩ | ⟨m, hm, _⟩
      · exact Or.inl hres
      · obtain ⟨q, hq, hqk⟩ := uniqByName_go_cover pool [] p hp
          (List.not_mem_nil _)
        exact Or.inr ⟨q, hq, by rw [getNodeName_eq_of_nameKey_eq hqk, hpn]⟩
      · cases hm
    | d :: rest' =>
      rw [completeDefinitionPool] at h
      split at h
      · rename_i hcont
        refine ih U pool rest' visited out hU hpoolU
          (fun x hx => hqueueU x (List.mem_cons_of_mem _ hx)) hvis ?_ h
        intro x hx
        rcases hpoolq x hx with hv | hv
        · exact Or.inl hv
        · rw [List.map_cons] at hv
          rcases List.mem_cons.mp hv with he | he
          · exact Or.inl (he ▸ (contains_iff_mem _ _).mp hcont)
          · exact Or.inr he
      · rename_i hcont
        split at h
        · cases h
        · rename_i collected hcol
          have hprops := collectNew_props fuel U pool d (schemaMapOf U)
            (fun n m hm => schemaMapOf_mem hm)
            (fun n m hm => schemaMapOf_name hm) collected hcol
          have hcolU : ∀ x ∈ collected, x ∈ U := hprops.1
          have hdU : d ∈ U := hqueueU d (List.mem_cons_self _ _)
          refine ih U (pool ++ collected) (rest' ++ collected)
            (visited ++ [getNodeName d]) out hU ?_ ?_ ?_ ?_ h
          · intro x hx
            rcases List.mem_append.mp hx with hx | hx
            · exact hpoolU x hx
            · exact hcolU x hx
          · intro x hx
            rcases List.mem_append.mp hx with hx | hx
            · exact hqueueU x (List.mem_cons_of_mem _ hx)
            · exact hcolU x hx
          · intro n hn d' hd' hdn' r hr
            rcases List.mem_append.mp hn with hn | hn
            · exact resolvedIn_pool_mono (fun x hx => List.mem_append_left _ hx)
                (hvis n hn d' hd' hdn' r hr)
            · have hnd : n = getNodeName d := List.mem_singleton.mp hn
              have hde : d' = d :=
                List.inj_on_of_nodup_map hU hd' hdU (by rw [hdn', hnd])
              subst hde
              exact resolvedIn_flatten (hprops.2 r hr)
          · intro x hx
            rcases List.mem_append.mp hx with hx | hx
            · rcases hpoolq x hx with hv | hv
              · exact Or.inl (List.mem_append_left _ hv)
              · rw [List.map_cons] at hv
                rcases List.mem_cons.mp hv with he | he
                · exact Or.inl (List.mem_append_right _
                    (he ▸ List.mem_singleton_self _))
                · exact Or.inr (by
                    rw [List.map_append]
                    exact List.mem_append_left _ he)
            · exact Or.inr (by
                rw [List.map_append]
                exact List.mem_append_right _ (List.mem_map_of_mem _ hx))

/-- C1 (amended): for every run of the assembly-plus-closure pipeline that
succeeds, on a traversed universe with pairwise-distinct definition names
and node identities and with every requested definition drawn from the
universe (as the traversal constructs them), the output has pairwise
distinct names (each name appears exactly once as a top-level definition)
and every reference the closure engine checks — field, argument, union
member, declared interface, operation type and applied directive names —
from any definition in the output is a builtin or carried by some output
definition.  (References the engine does not check, such as the argument
types of a directly requested directive definition, and universes with
same-named definitions in different fragments, are excluded: see the
counterexample.) -/
theorem c1_closed_output (fuel : Nat) (mergeableTypes : List String)
    (typeDefs allDefs : List (List Definition)) (out : List Definition)
    (hnames : ((allDefs.flatten).map getNodeName).Nodup)
    (hids : ((allDefs.flatten).map Definition.id).Nodup)
    (hsub : ∀ l ∈ typeDefs, ∀ d ∈ l, d ∈ allDefs.flatten)
    (h : importSchemaCore fuel mergeableTypes typeDefs allDefs = .ok out) :
    ((out.map nameKey).Nodup) ∧
    ∀ d ∈ out, ∀ r ∈ checkedRefs d,
      r ∈ builtinAll ∨ ∃ q ∈ out, getNodeName q = r := by
  match typeDefs, hsub with
  | [], _ => rw [importSchemaCore] at h; cases h
  | td0 :: tds, hsub =>
  rw [importSchemaCore] at h
  have hflatTD : ∀ x ∈ (List.flatten (td0 :: tds)), x ∈ allDefs.flatten := by
    intro x hx
    obtain ⟨l, hl, hxl⟩ := List.mem_flatten.mp hx
    exact hsub l hl x hxl
  have hfs : ∀ x ∈ firstSetOf mergeableTypes (td0 :: tds),
      x ∈ List.flatten (td0 :: tds) := by
    intro x hx
    rw [firstSetOf] at hx
    rcases List.mem_append.mp hx with hx | hx
    · exact (List.mem_filter.mp hx).1
    · rw [List.headD_cons] at hx
      exact List.mem_flatten.mpr ⟨td0, List.mem_cons_self _ _,
        (List.mem_filter.mp hx).1⟩
  have hmergedP : ∀ m ∈ mergedOf mergeableTypes (td0 :: tds),
      ∃ x ∈ allDefs.flatten, m.id = x.id ∧ getNodeName m = getNodeName x := by
    rw [mergedOf]
    exact mergeLoop_entries allDefs.flatten _ [] []
      (fun x hx => hflatTD x (hfs x hx))
      (fun m hm => absurd hm (List.not_mem_nil m))
  have hupdname : ∀ d ∈ allDefs.flatten,
      getNodeName (applyMerge (mergedOf mergeableTypes (td0 :: tds)) d) =
        getNodeName d := by
    intro d hd
    rw [applyMerge]
    cases hfind : (mergedOf mergeableTypes (td0 :: tds)).find?
        (fun m => m.id == d.id) with
    | none => rfl
    | some m =>
      obtain ⟨x, hx, hid, hn⟩ := hmergedP m (List.mem_of_find?_eq_some hfind)
      have hmid : m.id = d.id := by
        have := List.find?_some hfind
        simpa using this
      have hxd : x = d :=
        List.inj_on_of_nodup_map hids hx hd (by rw [← hid, hmid])
      rw [hn, hxd]
  have hU'names :
      ((allDefs.flatten.map
        (applyMerge (mergedOf mergeableTypes (td0 :: tds)))).map getNodeName).Nodup := by
    rw [List.map_map]
    have : allDefs.flatten.map
        (getNodeName ∘ applyMerge (mergedOf mergeableTypes (td0 :: tds))) =
        allDefs.flatten.map getNodeName :=
      List.map_congr_left fun d hd => hupdname d hd
    rw [this]
    exact hnames
  have hout := completePool_closed fuel _ _ _ [] out hU'names ?_ ?_ ?_ ?_ h
  · refine ⟨?_, hout⟩
    obtain ⟨rest, hform, _⟩ := completePool_ok_structure fuel _ _ _ [] out h
    rw [hform]
    exact uniqByName_nodup _
  · intro y hy
    rw [initialPool] at hy
    obtain ⟨x, hx, rfl⟩ := List.mem_map.mp hy
    exact List.mem_map_of_mem _ (hflatTD x (hfs x hx))
  · intro y hy
    rw [initialQueue] at hy
    obtain ⟨x, hx, rfl⟩ := List.mem_map.mp hy
    exact List.mem_map_of_mem _ (hflatTD x hx)
  · intro n hn
    cases hn
  · intro y hy
    rw [initialPool] at hy
    obtain ⟨x, hx, rfl⟩ := List.mem_map.mp hy
    refine Or.inr ?_
    rw [initialQueue]
    exact List.mem_map_of_mem _ (List.mem_map_of_mem _ (hfs x hx))

/-- C1 counterexample: two failure modes of the claim as stated.  (1) With
same-named types `A` in two fragments (root imports `B` from f1, which
defines an unrequested `type A { bad: Missing }` and requests `A` from f2,
which defines `type A { good: String }`), the run succeeds and outputs the
universe lookup's earliest `A` — whose field type `Missing` is neither a
builtin nor defined anywhere in the output, and appears zero (not exactly
one) times as a top-level definition.  (2) With unique names, a directly
requested directive definition's argument type `Missing2` is never checked
and the run succeeds with a dangling reference. -/
theorem c1_cex_dangling_reference :
    (importSchemaCore 50 [] [[cxQuery], [cxB], [cxAgood]]
        [[cxQuery], [cxAbad, cxB], [cxAgood]] = .ok [cxQuery, cxB, cxAbad] ∧
      "Missing" ∈ fieldTypeRefs cxAbad ∧ "Missing" ∉ builtinAll ∧
      "Missing" ∉ ([cxQuery, cxB, cxAbad] : List Definition).map getNodeName) ∧
    (importSchemaCore 50 [] [[cxDirFoo]] [[cxDirFoo]] = .ok [cxDirFoo] ∧
      "Missing2" ∈ argTypeRefs cxDirFoo ∧ "Missing2" ∉ builtinAll ∧
      "Missing2" ∉ ([cxDirFoo] : List Definition).map getNodeName) :=
  ⟨⟨by decide, by decide, by decide, by decide⟩,
   ⟨by decide, by decide, by decide, by decide⟩⟩

/-- C1 witness: the amended theorem applied to the unique-name two-type
schema `Query { posts: Post }`, `Post { id: ID }`. -/
theorem c1_closed_output_witness :
    ((([[w1Query, w1Post]] : List (List Definition)).flatten.map getNodeName).Nodup) ∧
    ((([w1Query, w1Post] : List Definition).map nameKey).Nodup ∧
      ∀ d ∈ ([w1Query, w1Post] : List Definition), ∀ r ∈ checkedRefs d,
        r ∈ builtinAll ∨ ∃ q ∈ ([w1Query, w1Post] : List Definition),
          getNodeName q = r) :=
  ⟨by decide, c1_closed_output 20 [] [[w1Query, w1Post]] [[w1Query, w1Post]]
    [w1Query, w1Post] (by decide) (by decide)
    (by
      intro l hl d hd
      rw [List.mem_singleton] at hl
      subst hl
      simpa using hd)
    (by decide)⟩

theorem nodup_subset_dedup_length {α : Type} [DecidableEq α]
    {l L : List α} (h1 : l.Nodup) (h2 : ∀ x ∈ l, x ∈ L) :
    l.length ≤ L.dedup.length := by
  have hc : l.toFinset.card = l.length := List.toFinset_card_of_nodup h1
  have hsub : l.toFinset ⊆ L.toFinset := by
    intro x hx
    rw [List.mem_toFinset] at hx ⊢
    exact h2 x hx
  calc l.length = l.toFinset.card := hc.symm
    _ ≤ L.toFinset.card := Finset.card_le_card hsub
    _ = L.dedup.length := List.card_toFinset L

theorem pair_mem_pairUniverse {env : Env} {loc : String} {frag : Fragment}
    (hl : lookupEnv env loc = some frag) {m : ImportRequest}
    (hm : m ∈ frag.imports) : (loc, m) ∈ pairUniverse env := by
  rw [lookupEnv] at hl
  obtain ⟨b, hb, hb2⟩ := Option.map_eq_some'.mp hl
  have hbenv : b ∈ env := List.mem_of_find?_eq_some hb
  have hbl : b.1 = loc := by
    have := List.find?_some hb
    simpa using this
  rw [pairUniverse]
  refine List.mem_flatMap.mpr ⟨b, hbenv, ?_⟩
  refine List.mem_map.mpr ⟨m, ?_, ?_⟩
  · rw [hb2]; exact hm
  · rw [hbl]

theorem stepImports_preserve
    (env : Env) (visitF : List String → String → TravState → Option TravState)
    (hvf : ∀ i l s s', TravInv env s → visitF i l s = some s' →
      TravInv env s' ∧ ∃ ext, s'.processed = s.processed ++ ext)
    (loc : String) :
    ∀ (ms : List ImportRequest) (st st' : TravState),
      (∀ m ∈ ms, (loc, m) ∈ pairUniverse env) →
      TravInv env st →
      stepImports visitF loc ms st = some st' →
      TravInv env st' ∧ ∃ ext, st'.processed = st.processed ++ ext := by
  intro ms
  induction ms with
  | nil =>
    intro st st' _ hinv h
    cases h
    exact ⟨hinv, [], by rw [List.append_nil]⟩
  | cons m rest ih =>
    intro st st' hms hinv h
    rw [stepImports] at h
    split at h
    · exact ih st st' (fun x hx => hms x (List.mem_cons_of_mem _ hx)) hinv h
    · rename_i hcont
      rw [Bool.not_eq_true] at hcont
      split at h
      · cases h
      · rename_i st2 hvisit
        have hfresh : (loc, m) ∉ st.processed := fun hmem => by
          rw [(contains_iff_mem _ _).mpr hmem] at hcont
          cases hcont
        have hinv1 : TravInv env
            { st with processed := st.processed ++ [(loc, m)] } := by
          constructor
          · rw [← List.concat_eq_append]
            exact hinv.1.concat hfresh
          · intro p hp
            rcases List.mem_append.mp hp with hp | hp
            · exact hinv.2 p hp
            · rw [List.mem_singleton.mp hp]
              exact hms m (List.mem_cons_self _ _)
        obtain ⟨hinv2, ext1, hext1⟩ := hvf _ _ _ _ hinv1 hvisit
        obtain ⟨hinv3, ext2, hext2⟩ :=
          ih st2 st' (fun x hx => hms x (List.mem_cons_of_mem _ hx)) hinv2 h
        refine ⟨hinv3, [(loc, m)] ++ ext1 ++ ext2, ?_⟩
        rw [hext2, hext1]
        simp [List.append_assoc]

theorem collect_preserve (env : Env) :
    ∀ (fuel : Nat) (imps : List String) (loc : String) (st st' : TravState),
      TravInv env st →
      collectDefinitions env fuel imps loc st = some st' →
      TravInv env st' ∧ ∃ ext, st'.processed = st.processed ++ ext := by
  intro fuel
  induction fuel with
  | zero => intro imps loc st st' _ h; cases h
  | succ fuel ih =>
    intro imps loc st st' hinv h
    rw [collectDefinitions] at h
    split at h
    · cases h
    · rename_i frag hfrag
      split at h
      · rename_i entry current hentry hcurrent
        have hinv2 : TravInv env
            { st with allDefs := st.allDefs ++ [entry],
                      typeDefs := st.typeDefs ++ [current] } := hinv
        exact stepImports_preserve env (collectDefinitions env fuel)
          (fun i l s s' hs hv => ih i l s s' hs hv) loc frag.imports
          { st with allDefs := st.allDefs ++ [entry],
                    typeDefs := st.typeDefs ++ [current] } st'
          (fun m hm => pair_mem_pairUniverse hfrag hm) hinv2 h
      · cases h

theorem travInv_push {env : Env} {st : TravState} {loc : String}
    {m : ImportRequest} (hinv : TravInv env st)
    (hmem : (loc, m) ∈ pairUniverse env)
    (hfresh : (loc, m) ∉ st.processed) :
    TravInv env { st with processed := st.processed ++ [(loc, m)] } := by
  constructor
  · rw [← List.concat_eq_append]
    exact hinv.1.concat hfresh
  · intro p hp
    rcases List.mem_append.mp hp with hp | hp
    · exact hinv.2 p hp
    · rw [List.mem_singleton.mp hp]
      exact hmem

theorem pairsLeft_extend_le {env : Env} {st st' : TravState}
    (hext : ∃ ext, st'.processed = st.processed ++ ext) :
    pairsLeft env st' ≤ pairsLeft env st := by
  obtain ⟨ext, he⟩ := hext
  rw [pairsLeft, pairsLeft, he, List.length_append]
  omega

theorem stepImports_fuel (env : Env) (fuel : Nat)
    (ihfuel : ∀ imps loc st, TravInv env st → pairsLeft env st < fuel →
      collectDefinitions env (fuel + 1) imps loc st =
        collectDefinitions env fuel imps loc st)
    (loc : String) :
    ∀ (ms : List ImportRequest) (st : TravState),
      (∀ m ∈ ms, (loc, m) ∈ pairUniverse env) →
      TravInv env st → pairsLeft env st ≤ fuel →
      stepImports (collectDefinitions env (fuel + 1)) loc ms st =
        stepImports (collectDefinitions env fuel) loc ms st := by
  intro ms
  induction ms with
  | nil => intro st _ _ _; rfl
  | cons m rest ih =>
    intro st hms hinv hle
    rw [stepImports, stepImports]
    by_cases hcont : st.processed.contains (loc, m) = true
    · rw [if_pos hcont, if_pos hcont]
      exact ih st (fun x hx => hms x (List.mem_cons_of_mem _ hx)) hinv hle
    · rw [if_neg hcont, if_neg hcont]
      have hfresh : (loc, m) ∉ st.processed := fun hmem =>
        hcont ((contains_iff_mem _ _).mpr hmem)
      have hinv1 := travInv_push hinv (hms m (List.mem_cons_self _ _)) hfresh
      have hlen1 : st.processed.length + 1 ≤ ((pairUniverse env).dedup).length := by
        have := nodup_subset_dedup_length hinv1.1 hinv1.2
        simpa [List.length_append] using this
      have hge1 : 1 ≤ pairsLeft env st := by
        rw [pairsLeft]; omega
      have hlt1 : pairsLeft env
          { st with processed := st.processed ++ [(loc, m)] } < fuel := by
        rw [pairsLeft] at hle ⊢
        simp only [List.length_append, List.length_singleton]
        omega
      rw [ihfuel m.imports m.from_ _ hinv1 hlt1]
      cases hv : collectDefinitions env fuel m.imports m.from_
          { st with processed := st.processed ++ [(loc, m)] } with
      | none => rfl
      | some st2 =>
        obtain ⟨hinv2, hext⟩ := collect_preserve env fuel m.imports m.from_ _ st2 hinv1 hv
        have hle2 : pairsLeft env st2 ≤ fuel :=
          le_trans (pairsLeft_extend_le hext) (le_of_lt hlt1)
        exact ih st2 (fun x hx => hms x (List.mem_cons_of_mem _ hx)) hinv2 hle2

theorem collect_fuel_succ (env : Env) :
    ∀ (fuel : Nat) (imps : List String) (loc : String) (st : TravState),
      TravInv env st → pairsLeft env st < fuel →
      collectDefinitions env (fuel + 1) imps loc st =
        collectDefinitions env fuel imps loc st := by
  intro fuel
  induction fuel with
  | zero => intro imps loc st _ hlt; exact absurd hlt (Nat.not_lt_zero _)
  | succ fuel ih =>
    intro imps loc st hinv hlt
    rw [collectDefinitions]
    conv_rhs => rw [collectDefinitions]
    cases hfrag : lookupEnv env loc with
    | none => rfl
    | some frag =>
      dsimp only
      generalize narrowedEntry imps frag.defs = oe
      generalize filterImportedDefinitions imps frag.defs
        (st.allDefs ++ [filterTypeDefinitions frag.defs]) = oc
      cases oe with
      | none => cases oc <;> rfl
      | some entry =>
        cases oc with
        | none => rfl
        | some current =>
          have hinv2 : TravInv env
              { st with allDefs := st.allDefs ++ [entry],
                        typeDefs := st.typeDefs ++ [current] } := hinv
          have hple : pairsLeft env
              { st with allDefs := st.allDefs ++ [entry],
                        typeDefs := st.typeDefs ++ [current] } =
              pairsLeft env st := rfl
          have hle : pairsLeft env
              { st with allDefs := st.allDefs ++ [entry],
                        typeDefs := st.typeDefs ++ [current] } ≤ fuel := by
            rw [hple]
            omega
          exact stepImports_fuel env fuel ih loc frag.imports _
            (fun m hm => pair_mem_pairUniverse hfrag hm) hinv2 hle

theorem collect_fuel_add (env : Env) :
    ∀ (k fuel : Nat) (imps : List String) (loc : String) (st : TravState),
      TravInv env st → pairsLeft env st < fuel →
      collectDefinitions env (fuel + k) imps loc st =
        collectDefinitions env fuel imps loc st := by
  intro k
  induction k with
  | zero => intro fuel imps loc st _ _; rfl
  | succ k ih =>
    intro fuel imps loc st hinv hlt
    have h1 : fuel + (k + 1) = (fuel + k) + 1 := by omega
    rw [h1, collect_fuel_succ env (fuel + k) imps loc st hinv (by omega)]
    exact ih fuel imps loc st hinv hlt

/-- C6: the import-graph traversal is cycle-safe and terminating.
(1) Re-encountering an import line whose content equals one already
processed for the same source location is a no-op (no recursion).
(2) On any successful run the processed `(location, import-line)` pairs are
pairwise distinct — each pair is processed at most once — and their number
is at most the total number of import lines in the environment.  (3) The
result is independent of the recursion budget once it exceeds the number of
distinct unprocessed pairs, so the traversal terminates (and the recursion
depth is bounded by the number of distinct import lines plus one), also on
circular graphs: the two-fragment cycle `a ↔ b` finishes with each of its
two import lines processed exactly once. -/
theorem c6_traversal_cycle_safe :
    (∀ (visitF : List String → String → TravState → Option TravState)
      (loc : String) (m : ImportRequest) (ms : List ImportRequest)
      (st : TravState),
      st.processed.contains (loc, m) = true →
      stepImports visitF loc (m :: ms) st = stepImports visitF loc ms st) ∧
    (∀ (env : Env) (fuel : Nat) (imps : List String) (loc : String)
      (st st' : TravState),
      TravInv env st → collectDefinitions env fuel imps loc st = some st' →
      st'.processed.Nodup ∧ (∀ p ∈ st'.processed, p ∈ pairUniverse env) ∧
      st'.processed.length ≤ (pairUniverse env).length) ∧
    (∀ (env : Env) (f₁ f₂ : Nat) (imps : List String) (loc : String)
      (st : TravState),
      TravInv env st → pairsLeft env st < f₁ → pairsLeft env st < f₂ →
      collectDefinitions env f₁ imps loc st =
        collectDefinitions env f₂ imps loc st) ∧
    (collectDefinitions cycEnv 3 ["*"] "a" ⟨[], [], []⟩).map TravState.processed =
      some [("a", ⟨["*"], "b"⟩), ("b", ⟨["*"], "a"⟩)] := by
  refine ⟨?_, ?_, ?_, by decide⟩
  · intro visitF loc m ms st h
    rw [stepImports, if_pos h]
  · intro env fuel imps loc st st' hinv h
    obtain ⟨⟨hnd, hsub⟩, _⟩ := collect_preserve env fuel imps loc st st' hinv h
    refine ⟨hnd, hsub, ?_⟩
    calc st'.processed.length ≤ ((pairUniverse env).dedup).length :=
        nodup_subset_dedup_length hnd hsub
      _ ≤ (pairUniverse env).length :=
        (List.dedup_sublist _).length_le
  · intro env f₁ f₂ imps loc st hinv h1 h2
    have hb : ∀ f, pairsLeft env st < f →
        collectDefinitions env f imps loc st =
          collectDefinitions env (pairsLeft env st + 1) imps loc st := by
      intro f hf
      have : f = (pairsLeft env st + 1) + (f - pairsLeft env st - 1) := by omega
      rw [this, collect_fuel_add env _ _ imps loc st hinv (by omega)]
    rw [hb f₁ h1, hb f₂ h2]
